import Mathlib

/-!
Verification of the Lafter video-title pipeline.

The Python sources embedded here are `scripts/build_video_titles.py`,
`scripts/classify_unlabeled_titles.py` and the keyword-adjustment part of
`scripts/train_baseline_classifier.py`.  Strings are modelled as `List Char`
(Python `str` is a sequence of Unicode code points).  Regular-expression
substitutions are modelled as recursive scanners that reproduce Python's
left-to-right, leftmost, greedy `re.sub` semantics for the concrete patterns
appearing in the sources (none of those patterns needs backtracking: every
optional or starred piece is followed by a piece that cannot match the same
characters, so greedy scanning is exact).  The scanners take an explicit fuel
argument so that they are structurally recursive and kernel-computable; the
fuel is always one more than the length of the scanned list, which the
sufficiency lemmas below show is never exhausted.
-/

set_option maxRecDepth 8192
set_option maxHeartbeats 1000000

namespace Lafter

/-- Strings as lists of Unicode code points. -/
abbrev Str := List Char

/-- Whitespace test modelling Python's regex class `\s` (and `str.strip`) on
the characters that occur in this development: ASCII whitespace together with
the no-break space and the ideographic space. -/
def isSpaceChar (c : Char) : Bool :=
  c == ' ' || c == '\t' || c == '\n' || c == '\r' || c == '\x0b' || c == '\x0c' ||
    c == ' ' || c == '　'

/-- The character class of `REPEATED_SYMBOL_PATTERN`
(`([!?！？w〜〜・…、。\-―_+=♡♥★☆♪！？])`); the duplicated members of the
source class are listed once, since a regex character class is a set. -/
def repeatedSymbols : List Char :=
  ['!', '?', '！', '？', 'w', '〜', '・', '…', '、', '。', '-', '―', '_', '+', '=',
   '♡', '♥', '★', '☆', '♪']

/-- Membership in the repeated-emphasis-symbol class. -/
def isRepeatedSymbol (c : Char) : Bool := repeatedSymbols.contains c

/-- The three code-point ranges of `EMOJI_PATTERN`
(`[\U0001F1E0-\U0001F1FF\U0001F300-\U0001FAFF\U00002600-\U000027BF]`). -/
def isEmojiChar (c : Char) : Bool :=
  (0x1F1E0 ≤ c.toNat && c.toNat ≤ 0x1F1FF) ||
  (0x1F300 ≤ c.toNat && c.toNat ≤ 0x1FAFF) ||
  (0x2600 ≤ c.toNat && c.toNat ≤ 0x27BF)

/-- The four characters deleted by `TRIM_CHARS = str.maketrans("", "", "【】<>")`. -/
def trimChars : List Char := ['【', '】', '<', '>']

/-- One step of `unicodedata.normalize("NFKC", ·)`, modelled on the fragment of
NFKC exercised by this pipeline: the fullwidth ASCII block U+FF01-U+FF5E folds
to U+0021-U+007E, the ideographic space folds to a plain space, and the
horizontal ellipsis decomposes to three periods; all other characters are kept
unchanged (the titles handled by the remaining pipeline steps are compared
through this fragment only). -/
def nfkcChar (c : Char) : List Char :=
  if 0xFF01 ≤ c.toNat ∧ c.toNat ≤ 0xFF5E then [Char.ofNat (c.toNat - 0xFEE0)]
  else if c = '　' then [' ']
  else if c = '…' then ['.', '.', '.']
  else [c]

/-- `unicodedata.normalize("NFKC", text)` over the modelled fragment. -/
def nfkcStr (l : Str) : Str := l.flatMap nfkcChar

/-- `str.lower()` modelled on ASCII case folding (`Char.toLower` lowers exactly
the ASCII uppercase letters, as Python does on the ASCII range). -/
def lowerStr (l : Str) : Str := l.map Char.toLower

/-- Generic length bound used by the fuel-sufficiency lemmas. -/
theorem dropWhile_length_le (p : Char → Bool) (l : Str) :
    (l.dropWhile p).length ≤ l.length := by
  induction l with
  | nil => simp
  | cons a l ih =>
    by_cases h : p a
    · rw [List.dropWhile_cons_of_pos h]; simp; omega
    · rw [List.dropWhile_cons_of_neg (by simpa using h)]

/-- Does the scanned text start with a non-whitespace character? -/
def headNonSpace : Str → Bool
  | [] => false
  | d :: _ => !(isSpaceChar d)

/-- Fuel-indexed scanner for `HASHTAG_PATTERN.sub(" ", ·)` where
`HASHTAG_PATTERN = #\S+`: a `#` followed immediately by at least one
non-whitespace character is replaced, together with the maximal non-whitespace
run after it, by a single space. -/
def hashtagGo : Nat → Str → Str
  | 0, _ => []
  | _ + 1, [] => []
  | fuel + 1, c :: rest =>
    if c == '#' && headNonSpace rest
    then ' ' :: hashtagGo fuel (rest.dropWhile (fun d => !(isSpaceChar d)))
    else c :: hashtagGo fuel rest

/-- `HASHTAG_PATTERN.sub(" ", text)`. -/
def hashtagSub (l : Str) : Str := hashtagGo (l.length + 1) l

/-- Match one or more digits (`\d+`, modelled on the ASCII digits that NFKC
folding has already produced) at the head, returning the remainder. -/
def matchDigits1 (l : Str) : Option Str :=
  if l.takeWhile Char.isDigit = [] then none else some (l.dropWhile Char.isDigit)

/-- Consume an optional leading period (`\.?`). -/
def dropDot : Str → Str
  | [] => []
  | c :: t => if c == '.' then t else c :: t

/-- Match `kw\.?\s*\d+` at the head of `l` (the `vol`/`no` alternatives of
`EPISODE_PATTERN`), returning the remainder after the match. -/
def matchVolNo (kw : Str) (l : Str) : Option Str :=
  if kw.isPrefixOf l then
    matchDigits1 ((dropDot (l.drop kw.length)).dropWhile isSpaceChar)
  else none

/-- Match `EPISODE_PATTERN = (?:vol\.?\s*\d+|no\.?\s*\d+|#\s*\d+)` at the head
of `l`, trying the alternatives in the source order. -/
def matchEpisode (l : Str) : Option Str :=
  match matchVolNo ['v', 'o', 'l'] l with
  | some r => some r
  | none =>
    match matchVolNo ['n', 'o'] l with
    | some r => some r
    | none =>
      match l with
      | '#' :: r => matchDigits1 (r.dropWhile isSpaceChar)
      | _ => none

theorem matchDigits1_length {l r : Str} (h : matchDigits1 l = some r) :
    r.length ≤ l.length := by
  unfold matchDigits1 at h
  split at h
  · exact absurd h (by simp)
  · cases h
    exact dropWhile_length_le _ _

theorem dropDot_length (l : Str) : (dropDot l).length ≤ l.length := by
  cases l with
  | nil => simp [dropDot]
  | cons c t =>
    unfold dropDot
    by_cases h : c == '.'
    · simp [h]
    · simp [h]

theorem matchVolNo_length {kw l r : Str} (hkw : kw ≠ []) (h : matchVolNo kw l = some r) :
    r.length < l.length := by
  unfold matchVolNo at h
  split at h
  · rename_i hpre
    have hlen : kw.length ≤ l.length := (List.isPrefixOf_iff_prefix.mp hpre).length_le
    have h1 := matchDigits1_length h
    have h2 : (l.drop kw.length).length = l.length - kw.length := List.length_drop ..
    have h4 := dropWhile_length_le isSpaceChar (dropDot (l.drop kw.length))
    have h5 := dropDot_length (l.drop kw.length)
    have hkw' : 0 < kw.length := List.length_pos.mpr hkw
    omega
  · exact absurd h (by simp)

theorem matchEpisode_length {l r : Str} (h : matchEpisode l = some r) :
    r.length < l.length := by
  unfold matchEpisode at h
  cases h1 : matchVolNo ['v', 'o', 'l'] l with
  | some r' =>
    simp only [h1, Option.some.injEq] at h
    subst h
    exact matchVolNo_length (by simp) h1
  | none =>
    simp only [h1] at h
    cases h2 : matchVolNo ['n', 'o'] l with
    | some r' =>
      simp only [h2, Option.some.injEq] at h
      subst h
      exact matchVolNo_length (by simp) h2
    | none =>
      simp only [h2] at h
      split at h
      · rename_i t
        have h3 := matchDigits1_length h
        have h4 := dropWhile_length_le isSpaceChar t
        simp only [List.length_cons]
        omega
      · exact absurd h (by simp)

/-- Fuel-indexed scanner for `EPISODE_PATTERN.sub(" ", ·)`: scan left to right;
where the pattern matches, emit a single space and resume after the match. -/
def episodeGo : Nat → Str → Str
  | 0, _ => []
  | _ + 1, [] => []
  | fuel + 1, c :: rest =>
    match matchEpisode (c :: rest) with
    | some r => ' ' :: episodeGo fuel r
    | none => c :: episodeGo fuel rest

/-- `EPISODE_PATTERN.sub(" ", text)`. -/
def episodeSub (l : Str) : Str := episodeGo (l.length + 1) l

/-- Fuel-indexed scanner for `BRACKET_TAG_PATTERN.sub(" ", ·)` where the
pattern is `\[[^\]]+\]`: at a `[`, if some `]` occurs later with at least one
character in between, the whole span up to the first such `]` is replaced by a
single space; otherwise the `[` is kept and scanning resumes at the next
character. -/
def bracketGo : Nat → Str → Str
  | 0, _ => []
  | _ + 1, [] => []
  | fuel + 1, c :: rest =>
    if c == '[' && !(rest.takeWhile (fun d => !(d == ']'))).isEmpty &&
        !(rest.dropWhile (fun d => !(d == ']'))).isEmpty
    then ' ' :: bracketGo fuel ((rest.dropWhile (fun d => !(d == ']'))).tail)
    else c :: bracketGo fuel rest

/-- `BRACKET_TAG_PATTERN.sub(" ", text)`. -/
def bracketSub (l : Str) : Str := bracketGo (l.length + 1) l

/-- `text.translate(TRIM_CHARS)`: delete every occurrence of `【`, `】`, `<`, `>`. -/
def translateDel (l : Str) : Str := l.filter (fun c => !(trimChars.contains c))

/-- Fuel-indexed scanner for `EMOJI_PATTERN.sub(" ", ·)`: a maximal run of
emoji-range characters is replaced by a single space. -/
def emojiGo : Nat → Str → Str
  | 0, _ => []
  | _ + 1, [] => []
  | fuel + 1, c :: rest =>
    if isEmojiChar c
    then ' ' :: emojiGo fuel (rest.dropWhile isEmojiChar)
    else c :: emojiGo fuel rest

/-- `EMOJI_PATTERN.sub(" ", text)`. -/
def emojiSub (l : Str) : Str := emojiGo (l.length + 1) l

/-- Does the scanned text start with the given character? -/
def headIs (l : Str) (c : Char) : Bool :=
  match l with
  | [] => false
  | d :: _ => d == c

/-- Fuel-indexed scanner for `REPEATED_SYMBOL_PATTERN.sub(r"\1", ·)`: a run of
two or more copies of one character from the class is collapsed to a single
copy. -/
def collapseGo : Nat → Str → Str
  | 0, _ => []
  | _ + 1, [] => []
  | fuel + 1, c :: rest =>
    if isRepeatedSymbol c && headIs rest c
    then c :: collapseGo fuel (rest.dropWhile (fun d => d == c))
    else c :: collapseGo fuel rest

/-- `REPEATED_SYMBOL_PATTERN.sub(r"\1", text)`. -/
def collapseRepeats (l : Str) : Str := collapseGo (l.length + 1) l

/-- Fuel-indexed scanner for `re.sub(r"\s+", " ", ·)`: a maximal whitespace run
becomes a single space. -/
def wsGo : Nat → Str → Str
  | 0, _ => []
  | _ + 1, [] => []
  | fuel + 1, c :: rest =>
    if isSpaceChar c
    then ' ' :: wsGo fuel (rest.dropWhile isSpaceChar)
    else c :: wsGo fuel rest

/-- `re.sub(r"\s+", " ", text)`. -/
def wsSub (l : Str) : Str := wsGo (l.length + 1) l

/-- `str.strip()` on the left. -/
def lstripWS (l : Str) : Str := l.dropWhile isSpaceChar

/-- `str.strip()` on the right. -/
def rstripWS (l : Str) : Str := (l.reverse.dropWhile isSpaceChar).reverse

/-- `str.strip()`. -/
def stripWS (l : Str) : Str := rstripWS (lstripWS l)

/-- `normalize_title` of `scripts/build_video_titles.py` (the identical copy in
`scripts/classify_unlabeled_titles.py` is the same function): NFKC fold,
lowercase, hashtag removal, episode-marker removal, bracket-tag removal,
bracket-character deletion, emoji-run replacement, repeated-symbol collapse,
whitespace collapse and strip. -/
def normalize_title (s : Str) : Str :=
  stripWS (wsSub (collapseRepeats (emojiSub (translateDel (bracketSub
    (episodeSub (hashtagSub (lowerStr (nfkcStr s)))))))))

example : normalize_title "vol<3".toList = "vol3".toList := by decide
example : normalize_title "vol3".toList = [] := by decide
example : normalize_title "a[x]b".toList = "a b".toList := by decide
example : normalize_title "ＡＢＣ".toList = "abc".toList := by decide
example : normalize_title "すごい!!!!!w".toList = "すごい!w".toList := by decide
example : normalize_title "#shorts 今日の飯 [公式]".toList = "今日の飯".toList := by
  decide

/-! ## Levenshtein distance

`levenshtein_distance` embeds the dynamic program of
`scripts/build_video_titles.py` (early returns, row-by-row table).
`levRec` is the textbook recursive definition of unit-cost edit distance,
used as the specification the DP is proved against. -/

/-- Substitution cost `(ca != cb)` of the source. -/
def chCost (x y : Char) : Nat := if x = y then 0 else 1

/-- Standard unit-cost insert/delete/substitute edit distance, defined by the
textbook recursion on the front characters. -/
def levRec : Str → Str → Nat
  | [], ys => ys.length
  | x :: xs, [] => (x :: xs).length
  | x :: xs, y :: ys =>
    min (levRec xs (y :: ys) + 1)
      (min (levRec (x :: xs) ys + 1) (levRec xs ys + chCost x y))
termination_by a b => a.length + b.length
decreasing_by
  · simp only [List.length_cons]; omega
  · simp only [List.length_cons]; omega
  · simp only [List.length_cons]; omega

theorem levRec_nil_left (ys : Str) : levRec [] ys = ys.length := by
  rw [levRec]

theorem levRec_nil_right (xs : Str) : levRec xs [] = xs.length := by
  cases xs with
  | nil => simp [levRec_nil_left]
  | cons x xs => rw [levRec]

theorem levRec_cons_cons (x y : Char) (xs ys : Str) :
    levRec (x :: xs) (y :: ys) =
      min (levRec xs (y :: ys) + 1)
        (min (levRec (x :: xs) ys + 1) (levRec xs ys + chCost x y)) := by
  rw [levRec]

/-- Edit distance consumed from the back: the quantity tabulated by the
dynamic program. -/
def levSnoc (q r : Str) : Nat := levRec q.reverse r.reverse

theorem levSnoc_nil_right (q : Str) : levSnoc q [] = q.length := by
  unfold levSnoc
  rw [List.reverse_nil, levRec_nil_right, List.length_reverse]

theorem levSnoc_nil_left (r : Str) : levSnoc [] r = r.length := by
  unfold levSnoc
  rw [List.reverse_nil, levRec_nil_left, List.length_reverse]

theorem levSnoc_snoc (p t : Str) (x y : Char) :
    levSnoc (p ++ [x]) (t ++ [y]) =
      min (levSnoc p (t ++ [y]) + 1)
        (min (levSnoc (p ++ [x]) t + 1) (levSnoc p t + chCost x y)) := by
  unfold levSnoc
  simp only [List.reverse_append, List.reverse_singleton, List.singleton_append]
  rw [levRec_cons_cons]

/-- One row of the dynamic program: the inner `for j, cb in enumerate(b, 1)`
loop, walking the previous row alongside `b`; `last` is the entry
`current[j-1]` just produced. -/
def levRow (ca : Char) : List Nat → Nat → Str → List Nat
  | p0 :: p1 :: ps, last, cb :: bs =>
    (min (last + 1) (min (p1 + 1) (p0 + chCost ca cb))) ::
      levRow ca (p1 :: ps) (min (last + 1) (min (p1 + 1) (p0 + chCost ca cb))) bs
  | _, _, _ => []

/-- The outer `for i, ca in enumerate(a, start=1)` loop of the dynamic
program: fold the rows over `a`, starting each row with the entry `i`. -/
def levLoop (b : Str) : Str → List Nat → Nat → List Nat
  | [], prev, _ => prev
  | ca :: arest, prev, i => levLoop b arest (i :: levRow ca prev i b) (i + 1)

/-- `levenshtein_distance` of `scripts/build_video_titles.py`: early returns
for equal/empty arguments, then the row dynamic program, returning
`prev_row[-1]`. -/
def levenshtein_distance (a b : Str) : Nat :=
  if a = b then 0
  else if a = [] then b.length
  else if b = [] then a.length
  else (levLoop b a (List.range (b.length + 1)) 1).getLastD 0

example : levenshtein_distance "abc".toList "abd".toList = 1 := by decide
example : levenshtein_distance "kitten".toList "sitting".toList = 3 := by decide
example : levenshtein_distance "abc".toList "abc".toList = 0 := by decide
example : levenshtein_distance "".toList "abc".toList = 3 := by decide

/-- The row of back-consumed distances `levSnoc p (t ++ bs.take j)` for
`j = 0 .. bs.length`, built recursively. -/
def rowFor (p : Str) : Str → Str → List Nat
  | t, [] => [levSnoc p t]
  | t, cb :: bs => levSnoc p t :: rowFor p (t ++ [cb]) bs

theorem rowFor_head (p t : Str) (bs : Str) :
    rowFor p t bs = levSnoc p t :: (rowFor p t bs).tail := by
  cases bs <;> rfl

theorem rowFor_nil : ∀ (b t : Str), rowFor [] t b = List.range' t.length (b.length + 1) := by
  intro b
  induction b with
  | nil =>
    intro t
    rw [List.range'_succ]
    simp [rowFor, levSnoc_nil_left]
  | cons cb bs ih =>
    intro t
    rw [List.range'_succ]
    simp only [rowFor, levSnoc_nil_left, List.length_cons]
    rw [ih (t ++ [cb])]
    simp [List.length_append]

theorem rowFor_getLast : ∀ (bs : Str) (p t : Str) (d : Nat),
    (rowFor p t bs).getLastD d = levSnoc p (t ++ bs) := by
  intro bs
  induction bs with
  | nil =>
    intro p t d
    simp [rowFor]
  | cons cb bs ih =>
    intro p t d
    rw [show rowFor p t (cb :: bs) = levSnoc p t :: rowFor p (t ++ [cb]) bs from rfl,
      List.getLastD_cons, ih p (t ++ [cb]) (levSnoc p t)]
    rw [List.append_assoc]
    rfl

/-- The inner loop of the dynamic program transforms the row of the prefix `p`
into the tail of the row of `p ++ [ca]`. -/
theorem levRow_spec : ∀ (bs t p : Str) (ca : Char),
    levRow ca (rowFor p t bs) (levSnoc (p ++ [ca]) t) bs = (rowFor (p ++ [ca]) t bs).tail := by
  intro bs
  induction bs with
  | nil =>
    intro t p ca
    rfl
  | cons cb bs ih =>
    intro t p ca
    rw [show rowFor p t (cb :: bs) = levSnoc p t :: rowFor p (t ++ [cb]) bs from rfl,
      rowFor_head p (t ++ [cb]) bs]
    simp only [levRow]
    have hs := levSnoc_snoc p t ca cb
    have hv : min (levSnoc (p ++ [ca]) t + 1)
        (min (levSnoc p (t ++ [cb]) + 1) (levSnoc p t + chCost ca cb)) =
        levSnoc (p ++ [ca]) (t ++ [cb]) := by omega
    rw [hv, ← rowFor_head p (t ++ [cb]) bs, ih (t ++ [cb]) p ca,
      ← rowFor_head (p ++ [ca]) (t ++ [cb]) bs]
    rfl

/-- The outer loop of the dynamic program extends the processed prefix. -/
theorem levLoop_spec : ∀ (as b p : Str),
    levLoop b as (rowFor p [] b) (p.length + 1) = rowFor (p ++ as) [] b := by
  intro as
  induction as with
  | nil =>
    intro b p
    simp [levLoop]
  | cons ca as ih =>
    intro b p
    rw [show levLoop b (ca :: as) (rowFor p [] b) (p.length + 1) =
        levLoop b as ((p.length + 1) :: levRow ca (rowFor p [] b) (p.length + 1) b)
          (p.length + 1 + 1) from rfl]
    have hlen : levSnoc (p ++ [ca]) [] = p.length + 1 := by
      rw [levSnoc_nil_right, List.length_append, List.length_singleton]
    have h1 : levRow ca (rowFor p [] b) (p.length + 1) b = (rowFor (p ++ [ca]) [] b).tail := by
      rw [← hlen]
      exact levRow_spec b [] p ca
    have hrow : ((p.length + 1 : Nat) :: (rowFor (p ++ [ca]) [] b).tail) =
        rowFor (p ++ [ca]) [] b := by
      conv_rhs => rw [rowFor_head (p ++ [ca]) [] b]
      rw [hlen]
    rw [h1, hrow]
    have h2 := ih b (p ++ [ca])
    rw [List.length_append, List.length_singleton] at h2
    rw [h2, List.append_assoc]
    rfl

theorem chCost_self (x : Char) : chCost x x = 0 := by simp [chCost]

theorem chCost_symm (x y : Char) : chCost x y = chCost y x := by
  unfold chCost
  by_cases h : x = y
  · simp [h]
  · rw [if_neg h, if_neg (fun h' => h (Eq.symm h'))]

theorem chCost_le_one (x y : Char) : chCost x y ≤ 1 := by
  unfold chCost; split <;> omega

theorem chCost_triangle (x y z : Char) : chCost x z ≤ chCost x y + chCost y z := by
  unfold chCost
  by_cases hxy : x = y
  · subst hxy
    by_cases hyz : x = z <;> simp [hyz]
  · rw [if_neg hxy]
    split <;> split <;> omega

theorem levRec_self : ∀ a : Str, levRec a a = 0 := by
  intro a
  induction a with
  | nil => simp [levRec_nil_left]
  | cons x xs ih =>
    rw [levRec_cons_cons, chCost_self, ih]
    omega

theorem levRec_symm : ∀ a b : Str, levRec a b = levRec b a := by
  have H : ∀ n a b, List.length a + List.length b ≤ n → levRec a b = levRec b a := by
    intro n
    induction n with
    | zero =>
      intro a b h
      match a, b with
      | [], [] => rfl
      | [], _ :: _ => simp at h
      | _ :: _, _ => simp at h
    | succ n ih =>
      intro a b h
      match a, b with
      | [], b => rw [levRec_nil_left, levRec_nil_right]
      | a :: as, [] => rw [levRec_nil_left, levRec_nil_right]
      | x :: xs, y :: ys =>
        rw [levRec_cons_cons, levRec_cons_cons]
        simp only [List.length_cons] at h
        rw [ih xs (y :: ys) (by simp; omega), ih (x :: xs) ys (by simp; omega),
          ih xs ys (by omega), chCost_symm]
        omega
  intro a b
  exact H (a.length + b.length) a b le_rfl

theorem levRec_le_sum : ∀ a b : Str, levRec a b ≤ a.length + b.length := by
  have H : ∀ n a b, List.length a + List.length b ≤ n →
      levRec a b ≤ a.length + b.length := by
    intro n
    induction n with
    | zero =>
      intro a b h
      match a, b with
      | [], [] => simp [levRec_nil_left]
      | [], _ :: _ => simp at h
      | _ :: _, _ => simp at h
    | succ n ih =>
      intro a b h
      match a, b with
      | [], b => simp [levRec_nil_left]
      | a :: as, [] => simp [levRec_nil_right]
      | x :: xs, y :: ys =>
        rw [levRec_cons_cons]
        simp only [List.length_cons] at h ⊢
        have h1 := ih xs (y :: ys) (by simp; omega)
        simp only [List.length_cons] at h1
        omega
  intro a b
  exact H (a.length + b.length) a b le_rfl

theorem levRec_length_le : ∀ a b : Str, b.length ≤ a.length + levRec a b := by
  have H : ∀ n a b, List.length a + List.length b ≤ n →
      b.length ≤ a.length + levRec a b := by
    intro n
    induction n with
    | zero =>
      intro a b h
      match a, b with
      | [], [] => simp [levRec_nil_left]
      | [], _ :: _ => simp at h
      | _ :: _, _ => simp at h
    | succ n ih =>
      intro a b h
      match a, b with
      | [], b => simp [levRec_nil_left]
      | a :: as, [] => simp [levRec_nil_right]
      | x :: xs, y :: ys =>
        rw [levRec_cons_cons]
        simp only [List.length_cons] at h ⊢
        have h1 := ih xs (y :: ys) (by simp; omega)
        have h2 := ih (x :: xs) ys (by simp; omega)
        have h3 := ih xs ys (by omega)
        simp only [List.length_cons] at h1 h2 h3
        omega
  intro a b
  exact H (a.length + b.length) a b le_rfl

theorem levRec_length_le' (a b : Str) : a.length ≤ b.length + levRec a b := by
  rw [levRec_symm]
  exact levRec_length_le b a

/-- Inserting a head character on the right changes the distance by at most one. -/
theorem levRec_insert_right (a : Str) (z : Char) (c : Str) :
    levRec a (z :: c) ≤ levRec a c + 1 := by
  cases a with
  | nil => simp [levRec_nil_left]
  | cons x xs => rw [levRec_cons_cons]; omega

/-- Inserting a head character on the left changes the distance by at most one. -/
theorem levRec_insert_left (x : Char) (a c : Str) :
    levRec (x :: a) c ≤ levRec a c + 1 := by
  cases c with
  | nil => rw [levRec_nil_right, levRec_nil_right]; simp
  | cons z cs => rw [levRec_cons_cons]; omega

/-- Dropping the head character on the left changes the distance by at most one. -/
theorem levRec_drop_left : ∀ (c : Str) (x : Char) (xs : Str),
    levRec xs c ≤ levRec (x :: xs) c + 1 := by
  intro c
  induction c with
  | nil =>
    intro x xs
    rw [levRec_nil_right, levRec_nil_right]
    simp only [List.length_cons]
    omega
  | cons z cs ih =>
    intro x xs
    rw [levRec_cons_cons (x := x)]
    have h1 := levRec_insert_right xs z cs
    have h2 := ih x xs
    omega

/-- Dropping the head character on the right changes the distance by at most one. -/
theorem levRec_drop_right (c : Str) (y : Char) (ys : Str) :
    levRec c ys ≤ levRec c (y :: ys) + 1 := by
  rw [levRec_symm c ys, levRec_symm c (y :: ys)]
  exact levRec_drop_left c y ys

/-- Substituting the two head characters costs at most their character cost. -/
theorem levRec_subst (x z : Char) (a c : Str) :
    levRec (x :: a) (z :: c) ≤ levRec a c + chCost x z := by
  rw [levRec_cons_cons]; omega

theorem levRec_triangle : ∀ a b c : Str, levRec a c ≤ levRec a b + levRec b c := by
  have H : ∀ n a b c, List.length a + List.length b + List.length c ≤ n →
      levRec a c ≤ levRec a b + levRec b c := by
    intro n
    induction n with
    | zero =>
      intro a b c h
      match a, b, c with
      | [], [], [] => simp [levRec_nil_left]
      | [], [], _ :: _ => simp at h
      | [], _ :: _, _ => simp at h
      | _ :: _, _, _ => simp at h
    | succ n ih =>
      intro a b c h
      match a, b, c with
      | a, [], c =>
        rw [levRec_nil_left, levRec_nil_right]
        exact le_trans (levRec_le_sum a c) (by omega)
      | [], b, c =>
        rw [levRec_nil_left, levRec_nil_left]
        have := levRec_length_le b c
        omega
      | a :: as, b, [] =>
        rw [levRec_nil_right, levRec_nil_right]
        have := levRec_length_le' (a :: as) b
        omega
      | x :: a', y :: b', z :: c' =>
        simp only [List.length_cons] at h
        -- the three possible values of levRec (x :: a') (y :: b')
        have hab := levRec_cons_cons x y a' b'
        have hA : levRec (x :: a') (y :: b') = levRec a' (y :: b') + 1 ∨
            levRec (x :: a') (y :: b') = levRec (x :: a') b' + 1 ∨
            levRec (x :: a') (y :: b') = levRec a' b' + chCost x y := by omega
        rcases hA with hA | hA | hA
        · -- delete x : go through (a', y :: b')
          have h1 := levRec_insert_left x a' (z :: c')
          have h2 := ih a' (y :: b') (z :: c') (by simp; omega)
          omega
        · -- delete y from b : go through (x :: a', b')
          have h1 := ih (x :: a') b' (z :: c') (by simp; omega)
          have h2 := levRec_drop_left (z :: c') y b'
          omega
        · -- substitution branch: case on the value of levRec (y :: b') (z :: c')
          have hbc := levRec_cons_cons y z b' c'
          have hB : levRec (y :: b') (z :: c') = levRec b' (z :: c') + 1 ∨
              levRec (y :: b') (z :: c') = levRec (y :: b') c' + 1 ∨
              levRec (y :: b') (z :: c') = levRec b' c' + chCost y z := by omega
          rcases hB with hB | hB | hB
          · have h1 := levRec_insert_left x a' (z :: c')
            have h2 := ih a' b' (z :: c') (by simp; omega)
            have hc := chCost_le_one x y
            omega
          · have h1 := levRec_insert_right (x :: a') z c'
            have h2 := ih (x :: a') (y :: b') c' (by simp; omega)
            omega
          · have h1 := levRec_subst x z a' c'
            have h2 := ih a' b' c' (by omega)
            have h3 := chCost_triangle x y z
            omega
  intro a b c
  exact H (a.length + b.length + c.length) a b c le_rfl

/-- Distance from a single character: the length of the other string, less one
when the character occurs in it. -/
theorem levRec_single : ∀ (c : Str) (x : Char),
    levRec [x] c = if c = [] then 1 else if x ∈ c then c.length - 1 else c.length := by
  intro c
  induction c with
  | nil =>
    intro x
    rw [levRec_nil_right]
    simp
  | cons z cs ih =>
    intro x
    rw [levRec_cons_cons, levRec_nil_left, levRec_nil_left, ih x,
      if_neg (List.cons_ne_nil z cs)]
    simp only [List.length_cons, List.mem_cons]
    by_cases hcs : cs = []
    · subst hcs
      by_cases hxz : x = z
      · simp [hxz, chCost]
      · simp [hxz, chCost]
    · have hlb : 1 ≤ cs.length := List.length_pos.mpr hcs
      rw [if_neg hcs]
      by_cases hxz : x = z
      · rw [if_pos (Or.inl hxz),
          show chCost x z = 0 from by unfold chCost; rw [if_pos hxz]]
        by_cases hxcs : x ∈ cs
        · rw [if_pos hxcs]; omega
        · rw [if_neg hxcs]; omega
      · rw [show chCost x z = 1 from by unfold chCost; rw [if_neg hxz]]
        by_cases hxcs : x ∈ cs
        · rw [if_pos (Or.inr hxcs), if_pos hxcs]; omega
        · rw [if_neg hxcs, if_neg (show ¬(x = z ∨ x ∈ cs) from by tauto)]; omega

/-- Distribution of addition over `min`, used to flatten nested minima. -/
theorem min_add_right (a b c : Nat) : min a b + c = min (a + c) (b + c) := by omega

/-- The snoc-recurrence for `levRec`: peeling the last characters satisfies the
same recurrence as peeling the first ones. -/
theorem levRec_snoc : ∀ (a b : Str) (x y : Char),
    levRec (a ++ [x]) (b ++ [y]) =
      min (levRec a (b ++ [y]) + 1)
        (min (levRec (a ++ [x]) b + 1) (levRec a b + chCost x y)) := by
  have H : ∀ n a b (x y : Char), List.length a + List.length b ≤ n →
      levRec (a ++ [x]) (b ++ [y]) =
        min (levRec a (b ++ [y]) + 1)
          (min (levRec (a ++ [x]) b + 1) (levRec a b + chCost x y)) := by
    intro n
    induction n with
    | zero =>
      intro a b x y h
      match a, b with
      | [], [] =>
        simp only [List.nil_append]
        rw [levRec_cons_cons]
      | [], _ :: _ => simp at h
      | _ :: _, _ => simp at h
    | succ n ih =>
      intro a b x y h
      match a, b with
      | [], b =>
        simp only [List.nil_append]
        rw [levRec_nil_left, levRec_nil_left, levRec_single (b ++ [y]) x,
          levRec_single b x, if_neg (by simp : ¬(b ++ [y] = []))]
        simp only [List.mem_append, List.mem_singleton, List.length_append,
          List.length_singleton]
        by_cases hb : b = []
        · subst hb
          by_cases hxy : x = y
          · simp [hxy, chCost]
          · simp [hxy, chCost]
        · rw [if_neg hb]
          have hlb : 1 ≤ b.length := List.length_pos.mpr hb
          by_cases hxb : x ∈ b
          · rw [if_pos (Or.inl hxb), if_pos hxb]
            have := chCost_le_one x y
            omega
          · by_cases hxy : x = y
            · rw [if_pos (Or.inr hxy), if_neg hxb,
                show chCost x y = 0 from by unfold chCost; rw [if_pos hxy]]
              omega
            · rw [if_neg (by tauto), if_neg hxb,
                show chCost x y = 1 from by unfold chCost; rw [if_neg hxy]]
              omega
      | a :: as, [] =>
        simp only [List.nil_append]
        rw [levRec_symm ((a :: as) ++ [x]) [y], levRec_symm (a :: as) [y],
          levRec_single ((a :: as) ++ [x]) y, levRec_single (a :: as) y,
          levRec_nil_right, levRec_nil_right,
          if_neg (by simp : ¬((a :: as) ++ [x] = [])),
          if_neg (List.cons_ne_nil a as)]
        simp only [List.mem_append, List.mem_singleton, List.length_append,
          List.length_cons, List.length_singleton]
        simp only [List.length_cons, List.length_nil] at h ⊢
        by_cases hya : y ∈ a :: as
        · rw [if_pos (Or.inl hya), if_pos hya]
          have := chCost_le_one x y
          omega
        · by_cases hyx : y = x
          · rw [if_pos (Or.inr hyx), if_neg hya,
              show chCost x y = 0 from by unfold chCost; rw [if_pos (Eq.symm hyx)]]
            omega
          · rw [if_neg (by tauto), if_neg hya,
              show chCost x y = 1 from by
                unfold chCost; rw [if_neg (fun hh => hyx (Eq.symm hh))]]
            omega
      | u :: as, v :: bs =>
        simp only [List.length_cons] at h
        have e1 := ih as (v :: bs) x y (by simp; omega)
        have e2 := ih (u :: as) bs x y (by simp; omega)
        have e3 := ih as bs x y (by omega)
        simp only [List.cons_append] at e1 e2 ⊢
        rw [levRec_cons_cons u v (as ++ [x]) (bs ++ [y]),
          levRec_cons_cons u v as (bs ++ [y]),
          levRec_cons_cons u v (as ++ [x]) bs,
          levRec_cons_cons u v as bs, e1, e2, e3]
        generalize levRec as (v :: (bs ++ [y])) = A1
        generalize levRec (as ++ [x]) (v :: bs) = A2
        generalize levRec as (v :: bs) = A3
        generalize levRec (u :: as) (bs ++ [y]) = A4
        generalize levRec (u :: (as ++ [x])) bs = A5
        generalize levRec (u :: as) bs = A6
        generalize levRec as (bs ++ [y]) = A7
        generalize levRec (as ++ [x]) bs = A8
        generalize levRec as bs = A9
        generalize chCost u v = cu
        generalize chCost x y = cx
        simp only [min_add_right]
        apply le_antisymm <;> (repeat' apply le_min) <;> omega
  intro a b x y
  exact H (a.length + b.length) a b x y le_rfl

/-- Edit distance is invariant under reversing both strings. -/
theorem levRec_rev : ∀ a b : Str, levRec a.reverse b.reverse = levRec a b := by
  have H : ∀ n a b, List.length a + List.length b ≤ n →
      levRec a.reverse b.reverse = levRec a b := by
    intro n
    induction n with
    | zero =>
      intro a b h
      match a, b with
      | [], [] => rfl
      | [], _ :: _ => simp at h
      | _ :: _, _ => simp at h
    | succ n ih =>
      intro a b h
      match a, b with
      | [], b =>
        rw [List.reverse_nil, levRec_nil_left, levRec_nil_left, List.length_reverse]
      | a :: as, [] =>
        rw [List.reverse_nil, levRec_nil_right, levRec_nil_right, List.length_reverse]
      | u :: as, v :: bs =>
        simp only [List.length_cons] at h
        rw [List.reverse_cons, List.reverse_cons, levRec_snoc]
        rw [← List.reverse_cons u as, ← List.reverse_cons v bs]
        rw [ih as (v :: bs) (by simp; omega), ih (u :: as) bs (by simp; omega),
          ih as bs (by omega), levRec_cons_cons]
  intro a b
  exact H (a.length + b.length) a b le_rfl

theorem levSnoc_eq_levRec (a b : Str) : levSnoc a b = levRec a b := by
  unfold levSnoc
  exact levRec_rev a b

/-- The dynamic program of the source computes the textbook edit distance. -/
theorem levenshtein_eq_levRec : ∀ a b : Str, levenshtein_distance a b = levRec a b := by
  intro a b
  unfold levenshtein_distance
  by_cases hab : a = b
  · rw [if_pos hab, hab, levRec_self]
  · rw [if_neg hab]
    by_cases ha : a = []
    · rw [if_pos ha, ha, levRec_nil_left]
    · rw [if_neg ha]
      by_cases hb : b = []
      · rw [if_pos hb, hb, levRec_nil_right]
      · rw [if_neg hb]
        have hinit : List.range (b.length + 1) = rowFor [] [] b := by
          rw [rowFor_nil b [], List.length_nil, List.range_eq_range']
        rw [hinit, show (1 : Nat) = ([] : Str).length + 1 from rfl, levLoop_spec a b [],
          List.nil_append, rowFor_getLast b a [] 0, List.nil_append, levSnoc_eq_levRec]

/-! ## Fuel irrelevance for the scanners

Each scanner ignores its fuel argument as long as the fuel exceeds the length
of the scanned list; the lemmas below recover the natural recurrences of the
substitutions, with no fuel in sight. -/

theorem hashtagGo_congr : ∀ (f₁ f₂ : Nat) (l : Str), l.length < f₁ → l.length < f₂ →
    hashtagGo f₁ l = hashtagGo f₂ l := by
  intro f₁
  induction f₁ with
  | zero => intro f₂ l h1 h2; omega
  | succ f ih =>
    intro f₂ l h1 h2
    match f₂, l with
    | 0, l => omega
    | f₂ + 1, [] => rfl
    | f₂ + 1, c :: rest =>
      simp only [List.length_cons] at h1 h2
      simp only [hashtagGo]
      have hd := dropWhile_length_le (fun d => !(isSpaceChar d)) rest
      by_cases hc : (c == '#' && headNonSpace rest) = true
      · rw [if_pos hc, if_pos hc, ih f₂ _ (by omega) (by omega)]
      · rw [if_neg hc, if_neg hc, ih f₂ rest (by omega) (by omega)]

theorem hashtagSub_nil : hashtagSub [] = [] := rfl

theorem hashtagSub_cons (c : Char) (rest : Str) :
    hashtagSub (c :: rest) =
      if (c == '#' && headNonSpace rest) = true
      then ' ' :: hashtagSub (rest.dropWhile (fun d => !(isSpaceChar d)))
      else c :: hashtagSub rest := by
  unfold hashtagSub
  have hd := dropWhile_length_le (fun d => !(isSpaceChar d)) rest
  simp only [List.length_cons, hashtagGo]
  by_cases hc : (c == '#' && headNonSpace rest) = true
  · rw [if_pos hc, if_pos hc,
      hashtagGo_congr (rest.length + 1) ((rest.dropWhile (fun d => !(isSpaceChar d))).length + 1)
        _ (by omega) (by omega)]
  · rw [if_neg hc, if_neg hc,
      hashtagGo_congr (rest.length + 1) (rest.length + 1) rest (by omega) (by omega)]

theorem episodeGo_congr : ∀ (f₁ f₂ : Nat) (l : Str), l.length < f₁ → l.length < f₂ →
    episodeGo f₁ l = episodeGo f₂ l := by
  intro f₁
  induction f₁ with
  | zero => intro f₂ l h1 h2; omega
  | succ f ih =>
    intro f₂ l h1 h2
    match f₂, l with
    | 0, l => omega
    | f₂ + 1, [] => rfl
    | f₂ + 1, c :: rest =>
      simp only [List.length_cons] at h1 h2
      simp only [episodeGo]
      cases hm : matchEpisode (c :: rest) with
      | some r =>
        have hr := matchEpisode_length hm
        simp only [List.length_cons] at hr
        dsimp only
        rw [ih f₂ r (by omega) (by omega)]
      | none =>
        dsimp only
        rw [ih f₂ rest (by omega) (by omega)]

theorem episodeSub_nil : episodeSub [] = [] := rfl

theorem episodeSub_cons (c : Char) (rest : Str) :
    episodeSub (c :: rest) =
      match matchEpisode (c :: rest) with
      | some r => ' ' :: episodeSub r
      | none => c :: episodeSub rest := by
  unfold episodeSub
  simp only [List.length_cons, episodeGo]
  cases hm : matchEpisode (c :: rest) with
  | some r =>
    have hr := matchEpisode_length hm
    simp only [List.length_cons] at hr
    dsimp only
    rw [episodeGo_congr (rest.length + 1) (r.length + 1) r (by omega) (by omega)]
  | none =>
    rfl

theorem bracketGo_congr : ∀ (f₁ f₂ : Nat) (l : Str), l.length < f₁ → l.length < f₂ →
    bracketGo f₁ l = bracketGo f₂ l := by
  intro f₁
  induction f₁ with
  | zero => intro f₂ l h1 h2; omega
  | succ f ih =>
    intro f₂ l h1 h2
    match f₂, l with
    | 0, l => omega
    | f₂ + 1, [] => rfl
    | f₂ + 1, c :: rest =>
      simp only [List.length_cons] at h1 h2
      simp only [bracketGo]
      have hd := dropWhile_length_le (fun d => !(d == ']')) rest
      have ht : ((rest.dropWhile (fun d => !(d == ']'))).tail).length ≤
          (rest.dropWhile (fun d => !(d == ']'))).length := by
        rw [List.length_tail]
        omega
      by_cases hc : (c == '[' && !(rest.takeWhile (fun d => !(d == ']'))).isEmpty &&
          !(rest.dropWhile (fun d => !(d == ']'))).isEmpty) = true
      · rw [if_pos hc, if_pos hc, ih f₂ _ (by omega) (by omega)]
      · rw [if_neg hc, if_neg hc, ih f₂ rest (by omega) (by omega)]

theorem bracketSub_nil : bracketSub [] = [] := rfl

theorem bracketSub_cons (c : Char) (rest : Str) :
    bracketSub (c :: rest) =
      if (c == '[' && !(rest.takeWhile (fun d => !(d == ']'))).isEmpty &&
          !(rest.dropWhile (fun d => !(d == ']'))).isEmpty) = true
      then ' ' :: bracketSub ((rest.dropWhile (fun d => !(d == ']'))).tail)
      else c :: bracketSub rest := by
  unfold bracketSub
  have hd := dropWhile_length_le (fun d => !(d == ']')) rest
  have ht : ((rest.dropWhile (fun d => !(d == ']'))).tail).length ≤
      (rest.dropWhile (fun d => !(d == ']'))).length := by
    rw [List.length_tail]
    omega
  simp only [List.length_cons, bracketGo]
  by_cases hc : (c == '[' && !(rest.takeWhile (fun d => !(d == ']'))).isEmpty &&
      !(rest.dropWhile (fun d => !(d == ']'))).isEmpty) = true
  · rw [if_pos hc, if_pos hc,
      bracketGo_congr (rest.length + 1)
        (((rest.dropWhile (fun d => !(d == ']'))).tail).length + 1) _ (by omega) (by omega)]
  · rw [if_neg hc, if_neg hc,
      bracketGo_congr (rest.length + 1) (rest.length + 1) rest (by omega) (by omega)]

theorem emojiGo_congr : ∀ (f₁ f₂ : Nat) (l : Str), l.length < f₁ → l.length < f₂ →
    emojiGo f₁ l = emojiGo f₂ l := by
  intro f₁
  induction f₁ with
  | zero => intro f₂ l h1 h2; omega
  | succ f ih =>
    intro f₂ l h1 h2
    match f₂, l with
    | 0, l => omega
    | f₂ + 1, [] => rfl
    | f₂ + 1, c :: rest =>
      simp only [List.length_cons] at h1 h2
      simp only [emojiGo]
      have hd := dropWhile_length_le isEmojiChar rest
      by_cases hc : isEmojiChar c = true
      · rw [if_pos hc, if_pos hc, ih f₂ _ (by omega) (by omega)]
      · rw [if_neg hc, if_neg hc, ih f₂ rest (by omega) (by omega)]

theorem emojiSub_nil : emojiSub [] = [] := rfl

theorem emojiSub_cons (c : Char) (rest : Str) :
    emojiSub (c :: rest) =
      if isEmojiChar c = true
      then ' ' :: emojiSub (rest.dropWhile isEmojiChar)
      else c :: emojiSub rest := by
  unfold emojiSub
  have hd := dropWhile_length_le isEmojiChar rest
  simp only [List.length_cons, emojiGo]
  by_cases hc : isEmojiChar c = true
  · rw [if_pos hc, if_pos hc,
      emojiGo_congr (rest.length + 1) ((rest.dropWhile isEmojiChar).length + 1) _
        (by omega) (by omega)]
  · rw [if_neg hc, if_neg hc,
      emojiGo_congr (rest.length + 1) (rest.length + 1) rest (by omega) (by omega)]

theorem collapseGo_congr : ∀ (f₁ f₂ : Nat) (l : Str), l.length < f₁ → l.length < f₂ →
    collapseGo f₁ l = collapseGo f₂ l := by
  intro f₁
  induction f₁ with
  | zero => intro f₂ l h1 h2; omega
  | succ f ih =>
    intro f₂ l h1 h2
    match f₂, l with
    | 0, l => omega
    | f₂ + 1, [] => rfl
    | f₂ + 1, c :: rest =>
      simp only [List.length_cons] at h1 h2
      simp only [collapseGo]
      have hd := dropWhile_length_le (fun d => d == c) rest
      by_cases hc : (isRepeatedSymbol c && headIs rest c) = true
      · rw [if_pos hc, if_pos hc, ih f₂ _ (by omega) (by omega)]
      · rw [if_neg hc, if_neg hc, ih f₂ rest (by omega) (by omega)]

theorem collapseRepeats_nil : collapseRepeats [] = [] := rfl

theorem collapseRepeats_cons (c : Char) (rest : Str) :
    collapseRepeats (c :: rest) =
      if (isRepeatedSymbol c && headIs rest c) = true
      then c :: collapseRepeats (rest.dropWhile (fun d => d == c))
      else c :: collapseRepeats rest := by
  unfold collapseRepeats
  have hd := dropWhile_length_le (fun d => d == c) rest
  simp only [List.length_cons, collapseGo]
  by_cases hc : (isRepeatedSymbol c && headIs rest c) = true
  · rw [if_pos hc, if_pos hc,
      collapseGo_congr (rest.length + 1) ((rest.dropWhile (fun d => d == c)).length + 1) _
        (by omega) (by omega)]
  · rw [if_neg hc, if_neg hc,
      collapseGo_congr (rest.length + 1) (rest.length + 1) rest (by omega) (by omega)]

theorem wsGo_congr : ∀ (f₁ f₂ : Nat) (l : Str), l.length < f₁ → l.length < f₂ →
    wsGo f₁ l = wsGo f₂ l := by
  intro f₁
  induction f₁ with
  | zero => intro f₂ l h1 h2; omega
  | succ f ih =>
    intro f₂ l h1 h2
    match f₂, l with
    | 0, l => omega
    | f₂ + 1, [] => rfl
    | f₂ + 1, c :: rest =>
      simp only [List.length_cons] at h1 h2
      simp only [wsGo]
      have hd := dropWhile_length_le isSpaceChar rest
      by_cases hc : isSpaceChar c = true
      · rw [if_pos hc, if_pos hc, ih f₂ _ (by omega) (by omega)]
      · rw [if_neg hc, if_neg hc, ih f₂ rest (by omega) (by omega)]

theorem wsSub_nil : wsSub [] = [] := rfl

theorem wsSub_cons (c : Char) (rest : Str) :
    wsSub (c :: rest) =
      if isSpaceChar c = true
      then ' ' :: wsSub (rest.dropWhile isSpaceChar)
      else c :: wsSub rest := by
  unfold wsSub
  have hd := dropWhile_length_le isSpaceChar rest
  simp only [List.length_cons, wsGo]
  by_cases hc : isSpaceChar c = true
  · rw [if_pos hc, if_pos hc,
      wsGo_congr (rest.length + 1) ((rest.dropWhile isSpaceChar).length + 1) _
        (by omega) (by omega)]
  · rw [if_neg hc, if_neg hc,
      wsGo_congr (rest.length + 1) (rest.length + 1) rest (by omega) (by omega)]

/-! ## Deduplication (`deduplicate_rows` of `scripts/build_video_titles.py`) -/

/-- A dataset row as handled by `deduplicate_rows`: a title and an optional
normalized title (the CSV rows built by `load_titles` always carry both, but
`row.get("normalized_title")` is written defensively). -/
structure Row where
  title : Str
  normalized_title : Option Str
deriving DecidableEq

/-- The comparison text `row.get("normalized_title") or row["title"]`: the
normalized title, falling back to the raw title when the key is absent or the
normalized title is the empty string (Python `or` treats `""` as falsy). -/
def compText (r : Row) : Str :=
  match r.normalized_title with
  | some s => if s = [] then r.title else s
  | none => r.title

/-- `DEDUP_DISTANCE_THRESHOLD = 2`. -/
def DEDUP_DISTANCE_THRESHOLD : Nat := 2

/-- One iteration of the `for row in rows` loop of `deduplicate_rows`: drop the
row when some already-kept row is within the distance threshold, else append. -/
def dedupStep (unique : List Row) (row : Row) : List Row :=
  if unique.any (fun kept =>
      decide (levenshtein_distance (compText row) (compText kept) ≤ DEDUP_DISTANCE_THRESHOLD))
  then unique
  else unique ++ [row]

/-- `deduplicate_rows` of `scripts/build_video_titles.py`. -/
def deduplicate_rows (rows : List Row) : List Row := rows.foldl dedupStep []

/-- Modelled from the spec (§4.2 Deduplicator): "compute the minimum Levenshtein
edit distance between its comparison text and every already-accepted row's
comparison text.  If that minimum is ≤ threshold, drop the row (the earlier,
already-accepted row wins).  Otherwise append it to the accumulator." -/
def dedupSpecStep (threshold : Nat) (unique : List Row) (row : Row) : List Row :=
  match unique with
  | [] => unique ++ [row]
  | k :: ks =>
    if (ks.map (fun kept => levenshtein_distance (compText row) (compText kept))).foldl min
        (levenshtein_distance (compText row) (compText k)) ≤ threshold
    then unique
    else unique ++ [row]

/-- Modelled from the spec (§4.2 Deduplicator): the greedy left-to-right fold
with an initially empty accumulator. -/
def dedupSpec (threshold : Nat) (rows : List Row) : List Row :=
  rows.foldl (dedupSpecStep threshold) []

theorem foldl_min_le_iff : ∀ (ds : List Nat) (d t : Nat),
    ds.foldl min d ≤ t ↔ d ≤ t ∨ ∃ x ∈ ds, x ≤ t := by
  intro ds
  induction ds with
  | nil => intro d t; simp
  | cons a ds ih =>
    intro d t
    rw [List.foldl_cons, ih (min d a) t]
    simp only [List.mem_cons]
    constructor
    · rintro (h | ⟨x, hx, hxt⟩)
      · rcases min_le_iff.mp h with h | h
        · exact Or.inl h
        · exact Or.inr ⟨a, Or.inl rfl, h⟩
      · exact Or.inr ⟨x, Or.inr hx, hxt⟩
    · rintro (h | ⟨x, hx | hx, hxt⟩)
      · exact Or.inl (min_le_iff.mpr (Or.inl h))
      · subst hx
        exact Or.inl (min_le_iff.mpr (Or.inr hxt))
      · exact Or.inr ⟨x, hx, hxt⟩

theorem dedupStep_eq_spec : dedupStep = dedupSpecStep DEDUP_DISTANCE_THRESHOLD := by
  funext u r
  cases u with
  | nil => simp [dedupStep, dedupSpecStep]
  | cons k ks =>
    simp only [dedupStep, dedupSpecStep]
    have hiff : ((k :: ks).any (fun kept =>
        decide (levenshtein_distance (compText r) (compText kept) ≤
          DEDUP_DISTANCE_THRESHOLD)) = true) ↔
        ((ks.map (fun kept => levenshtein_distance (compText r) (compText kept))).foldl min
          (levenshtein_distance (compText r) (compText k)) ≤ DEDUP_DISTANCE_THRESHOLD) := by
      rw [foldl_min_le_iff]
      simp only [List.any_cons, Bool.or_eq_true, List.any_eq_true, decide_eq_true_eq,
        List.mem_map]
      constructor
      · rintro (h | ⟨kept, hk, hle⟩)
        · exact Or.inl h
        · exact Or.inr ⟨_, ⟨kept, hk, rfl⟩, hle⟩
      · rintro (h | ⟨x, ⟨kept, hk, rfl⟩, hle⟩)
        · exact Or.inl h
        · exact Or.inr ⟨kept, hk, hle⟩
    by_cases h : (k :: ks).any (fun kept =>
        decide (levenshtein_distance (compText r) (compText kept) ≤
          DEDUP_DISTANCE_THRESHOLD)) = true
    · rw [if_pos h, if_pos (hiff.mp h)]
    · rw [if_neg h, if_neg (fun hh => h (hiff.mpr hh))]

/-- C9: the implemented Levenshtein distance equals the textbook unit-cost
insert/delete/substitute edit distance `levRec`, and it is a metric:
`d(a,a) = 0`, `d(a,b) = d(b,a)`, and the triangle inequality holds; moreover
`d("abc","abd") = 1`. -/
theorem C9_levenshtein_metric :
    (∀ a b : Str, levenshtein_distance a b = levRec a b) ∧
    (∀ a : Str, levenshtein_distance a a = 0) ∧
    (∀ a b : Str, levenshtein_distance a b = levenshtein_distance b a) ∧
    (∀ a b c : Str, levenshtein_distance a c ≤
      levenshtein_distance a b + levenshtein_distance b c) ∧
    levenshtein_distance "abc".toList "abd".toList = 1 := by
  refine ⟨levenshtein_eq_levRec, ?_, ?_, ?_, by decide⟩
  · intro a
    unfold levenshtein_distance
    rw [if_pos rfl]
  · intro a b
    rw [levenshtein_eq_levRec, levenshtein_eq_levRec, levRec_symm]
  · intro a b c
    rw [levenshtein_eq_levRec, levenshtein_eq_levRec, levenshtein_eq_levRec]
    exact levRec_triangle a b c

/-- C4: deduplication is the greedy left-to-right fold of the spec, preserving
first-seen order: a row is dropped exactly when the minimum Levenshtein
distance between its comparison text and every already-accepted row's
comparison text is at most the threshold, and otherwise appended; with
threshold 2 the ordered input `["abc", "abd", "xyz"]` keeps `["abc", "xyz"]`
and drops `"abd"`. -/
theorem C4_dedup_greedy :
    (∀ rows : List Row, deduplicate_rows rows = dedupSpec DEDUP_DISTANCE_THRESHOLD rows) ∧
    DEDUP_DISTANCE_THRESHOLD = 2 ∧
    deduplicate_rows
        [⟨"abc".toList, none⟩, ⟨"abd".toList, none⟩, ⟨"xyz".toList, none⟩] =
      [⟨"abc".toList, none⟩, ⟨"xyz".toList, none⟩] := by
  refine ⟨?_, rfl, by decide⟩
  intro rows
  unfold deduplicate_rows dedupSpec
  rw [dedupStep_eq_spec]

/-! ## Model artifact loading (`load_model` of `scripts/classify_unlabeled_titles.py`) -/

/-- The fields of the exported model JSON that `load_model` reads
(`vectorizer.feature_names`, `vectorizer.idf`, `vectorizer.ngram_range`,
`classifier.coef`, `classifier.intercept`); float values are exact rationals,
and the `ngram_range` entries are the natural numbers produced by `int(...)`
on the exporter output. -/
structure ArtifactJson where
  feature_names : List Str
  idf : List ℚ
  coef : List ℚ
  intercept : ℚ
  ngram_range : List Nat
deriving DecidableEq

/-- One value of the `feature_lookup` dictionary. -/
structure FeatureEntry where
  idf : ℚ
  coef : ℚ
deriving DecidableEq

/-- The result of `load_model`. -/
structure Model where
  feature_lookup : List (Str × FeatureEntry)
  intercept : ℚ
  ngram_min : Nat
  ngram_max : Nat
deriving DecidableEq

/-- Lookup in an association list with Python-dict semantics: the last binding
of a key wins. -/
def dictGet {α : Type} : List (Str × α) → Str → Option α
  | [], _ => none
  | (k, v) :: rest, g =>
    match dictGet rest g with
    | some v' => some v'
    | none => bif k == g then some v else none

/-- Python `gram in dict` membership. -/
def dictHas {α : Type} (l : List (Str × α)) (g : Str) : Bool := (dictGet l g).isSome

/-- The dictionary comprehension of `load_model`: for each index and feature
name, read `vectorizer.idf[idx]` and `classifier.coef[idx]`; a missing index is
Python's `IndexError`, modelled as `none`. -/
def buildLookup (a : ArtifactJson) : List Str → Nat → Option (List (Str × FeatureEntry))
  | [], _ => some []
  | n :: ns, i =>
    match a.idf.get? i, a.coef.get? i with
    | some idfV, some coefV =>
      match buildLookup a ns (i + 1) with
      | some rest => some ((n, ⟨idfV, coefV⟩) :: rest)
      | none => none
    | _, _ => none

/-- `load_model` of `scripts/classify_unlabeled_titles.py`: build the feature
lookup by index alignment and read `ngram_range[0]`, `ngram_range[1]`;
any missing index raises (modelled as `none`).  No validation is performed. -/
def load_model (a : ArtifactJson) : Option Model :=
  match buildLookup a a.feature_names 0, a.ngram_range.get? 0, a.ngram_range.get? 1 with
  | some lookup, some n0, some n1 => some ⟨lookup, a.intercept, n0, n1⟩
  | _, _, _ => none

theorem buildLookup_isSome : ∀ (a : ArtifactJson) (ns : List Str) (i : Nat),
    (buildLookup a ns i).isSome = true ↔
      (∀ j, j < ns.length → i + j < a.idf.length ∧ i + j < a.coef.length) := by
  intro a ns
  induction ns with
  | nil =>
    intro i
    simp [buildLookup]
  | cons n ns ih =>
    intro i
    simp only [buildLookup]
    cases hidf : a.idf.get? i with
    | none =>
      rw [List.get?_eq_none] at hidf
      simp only [Option.isSome_none, List.length_cons]
      constructor
      · intro h; cases h
      · intro h
        have := (h 0 (by omega)).1
        omega
    | some x =>
      have hidf' : i < a.idf.length := by
        by_contra hc
        rw [List.get?_eq_none.mpr (by omega)] at hidf
        cases hidf
      cases hcoef : a.coef.get? i with
      | none =>
        rw [List.get?_eq_none] at hcoef
        simp only [Option.isSome_none, List.length_cons]
        constructor
        · intro h; cases h
        · intro h
          have := (h 0 (by omega)).2
          omega
      | some y =>
        have hcoef' : i < a.coef.length := by
          by_contra hc
          rw [List.get?_eq_none.mpr (by omega)] at hcoef
          cases hcoef
        cases hrest : buildLookup a ns (i + 1) with
        | none =>
          have hr := (ih (i + 1)).not.mp (by rw [hrest]; simp)
          simp only [Option.isSome_none, List.length_cons]
          constructor
          · intro h; cases h
          · intro h
            exact ((hr (fun j hj => by
              have := h (j + 1) (by omega)
              constructor <;> omega)).elim)
        | some rest =>
          have hr := (ih (i + 1)).mp (by rw [hrest]; rfl)
          simp only [Option.isSome_some, List.length_cons, true_iff]
          intro j hj
          cases j with
          | zero => constructor <;> omega
          | succ j =>
            have := hr j (by omega)
            constructor <;> omega

/-- C2 amendment: `load_model` validates nothing.  It succeeds exactly when
`feature_names` is no longer than both `idf` and `coef` and `ngram_range` has
at least two entries; in particular it succeeds on artifacts whose arrays
differ in length (with `feature_names` the shorter), on `ngram_range.min >
ngram_range.max`, and on non-positive idf values; a too-long `feature_names`
fails as an index error (`none`), not as a ConfigError carrying a message. -/
theorem C2_load_model_no_validation :
    (∀ a : ArtifactJson, (load_model a).isSome = true ↔
      (a.feature_names.length ≤ a.idf.length ∧ a.feature_names.length ≤ a.coef.length ∧
        2 ≤ a.ngram_range.length)) ∧
    (load_model ⟨["ab".toList], [0, 7], [5], 3, [5, 2]⟩).isSome = true := by
  constructor
  · intro a
    unfold load_model
    have hb := buildLookup_isSome a a.feature_names 0
    constructor
    · intro h
      have h0 : (a.ngram_range.get? 0).isSome = true ∧ (a.ngram_range.get? 1).isSome = true ∧
          (buildLookup a a.feature_names 0).isSome = true := by
        cases hbl : buildLookup a a.feature_names 0 with
        | none => rw [hbl] at h; simp at h
        | some lk =>
          cases h0 : a.ngram_range.get? 0 with
          | none => rw [hbl, h0] at h; simp at h
          | some n0 =>
            cases h1 : a.ngram_range.get? 1 with
            | none => rw [hbl, h0, h1] at h; simp at h
            | some n1 => simp [hbl, h0, h1]
      obtain ⟨hn0, hn1, hbl⟩ := h0
      have hlen := hb.mp hbl
      refine ⟨?_, ?_, ?_⟩
      · by_cases hfe : a.feature_names.length = 0
        · omega
        · have := (hlen (a.feature_names.length - 1) (by omega)).1
          omega
      · by_cases hfe : a.feature_names.length = 0
        · omega
        · have := (hlen (a.feature_names.length - 1) (by omega)).2
          omega
      · rw [Option.isSome_iff_exists] at hn1
        obtain ⟨x, hx⟩ := hn1
        obtain ⟨hlt, -⟩ := List.get?_eq_some.mp hx
        omega
    · rintro ⟨h1, h2, h3⟩
      have hbl : (buildLookup a a.feature_names 0).isSome = true :=
        hb.mpr (fun j hj => by constructor <;> omega)
      rw [Option.isSome_iff_exists] at hbl
      obtain ⟨lk, hlk⟩ := hbl
      rw [hlk, List.get?_eq_get (by omega), List.get?_eq_get (by omega)]
      rfl
  · decide

/-- C2 counterexample: an artifact whose `feature_names` and `idf` lengths
differ (0 and 1) loads successfully instead of failing. -/
theorem C2_counterexample :
    (load_model ⟨[], [1], [], 0, [2, 2]⟩).isSome = true := by decide

/-! ## Feature extraction (`compute_tfidf` of `scripts/classify_unlabeled_titles.py`) -/

/-- The window sequence of the two nested loops of `compute_tfidf`:
`for n in range(n_min, n_max + 1): for idx in range(0, len(text) - n + 1):
gram = text[idx : idx + n]`, in loop order. -/
def gramSeq (text : Str) (nmin nmax : Nat) : List Str :=
  (List.range' nmin (nmax + 1 - nmin)).flatMap (fun n =>
    (List.range (text.length + 1 - n)).map (fun i => (text.drop i).take n))

/-- `counts[gram] = counts.get(gram, 0.0) + 1.0` with Python-dict semantics: an
existing key keeps its position, a new key is appended. -/
def bump (counts : List (Str × ℚ)) (g : Str) : List (Str × ℚ) :=
  bif counts.any (fun p => p.1 == g)
  then counts.map (fun p => bif p.1 == g then (p.1, p.2 + 1) else p)
  else counts ++ [(g, 1)]

/-- The body of the window loop: out-of-vocabulary grams are skipped, the rest
are counted. -/
def countStep (lookup : List (Str × FeatureEntry)) (counts : List (Str × ℚ)) (g : Str) :
    List (Str × ℚ) :=
  if dictHas lookup g then bump counts g else counts

/-- The counting phase of `compute_tfidf`. -/
def rawCounts (text : Str) (nmin nmax : Nat) (lookup : List (Str × FeatureEntry)) :
    List (Str × ℚ) :=
  (gramSeq text nmin nmax).foldl (countStep lookup) []

/-- `counts.get(g, 0.0)`. -/
def getVal (counts : List (Str × ℚ)) (g : Str) : ℚ := (dictGet counts g).getD 0

/-- `feature_lookup[gram]["idf"]` (total function; in `compute_tfidf` the gram
is always a key of the lookup, as `rawCounts_keys` below shows). -/
def idfOf (lookup : List (Str × FeatureEntry)) (g : Str) : ℚ :=
  match dictGet lookup g with
  | some e => e.idf
  | none => 0

/-- The weighting loop of `compute_tfidf`: `counts[gram] = count * idf`,
updating values in place (order preserved). -/
def weightCounts (counts : List (Str × ℚ)) (lookup : List (Str × FeatureEntry)) :
    List (Str × ℚ) :=
  counts.map (fun p => (p.1, p.2 * idfOf lookup p.1))

/-- `norm_sq`, accumulated as `norm_sq += value * value`. -/
def normSq (w : List (Str × ℚ)) : ℚ := (w.map (fun p => p.2 * p.2)).sum

/-- `compute_tfidf` of `scripts/classify_unlabeled_titles.py`: count vocabulary
windows, weight by idf, and L2-normalize unless the squared norm is zero, in
which case the weighted map is returned as is. -/
noncomputable def compute_tfidf (text : Str) (nmin nmax : Nat)
    (lookup : List (Str × FeatureEntry)) : List (Str × ℝ) :=
  if text = [] then []
  else if normSq (weightCounts (rawCounts text nmin nmax lookup) lookup) = 0 then
    (weightCounts (rawCounts text nmin nmax lookup) lookup).map (fun p => (p.1, (p.2 : ℝ)))
  else
    (weightCounts (rawCounts text nmin nmax lookup) lookup).map (fun p =>
      (p.1, (p.2 : ℝ) /
        Real.sqrt ((normSq (weightCounts (rawCounts text nmin nmax lookup) lookup) : ℚ) : ℝ)))

/-- `compute_score` of `scripts/classify_unlabeled_titles.py`: start from the
intercept and add `feature_lookup[gram]["coef"] * value` for each feature; a
gram missing from the lookup raises (modelled as `none`). -/
def compute_score : List (Str × ℝ) → List (Str × FeatureEntry) → ℝ → Option ℝ
  | [], _, score => some score
  | (g, v) :: fs, lookup, score =>
    match dictGet lookup g with
    | some e => compute_score fs lookup (score + (e.coef : ℝ) * v)
    | none => none

/-- `feature_lookup[gram]["coef"]` as a total function, for stating the sum. -/
noncomputable def coefOf (lookup : List (Str × FeatureEntry)) (g : Str) : ℝ :=
  match dictGet lookup g with
  | some e => (e.coef : ℝ)
  | none => 0

theorem any_key_isSome {α : Type} : ∀ (l : List (Str × α)) (g : Str),
    l.any (fun p => p.1 == g) = (dictGet l g).isSome := by
  intro l g
  induction l with
  | nil => rfl
  | cons kv rest ih =>
    obtain ⟨k, v⟩ := kv
    simp only [List.any_cons, dictGet, ih]
    cases dictGet rest g with
    | some w => simp
    | none => cases hk : k == g <;> simp [hk]

theorem dictGet_append_single {α : Type} (l : List (Str × α)) (g' : Str) (x : α) (g : Str) :
    dictGet (l ++ [(g', x)]) g = bif g' == g then some x else dictGet l g := by
  induction l with
  | nil => rfl
  | cons kv rest ih =>
    obtain ⟨k, v⟩ := kv
    have e : dictGet ((k, v) :: (rest ++ [(g', x)])) g =
        match dictGet (rest ++ [(g', x)]) g with
        | some v' => some v'
        | none => bif k == g then some v else none := rfl
    rw [List.cons_append, e, ih]
    cases hg : g' == g <;> simp only [Bool.cond_true, Bool.cond_false] <;> rfl

theorem dictGet_map_bump_same (g : Str) : ∀ (counts : List (Str × ℚ)),
    dictGet (counts.map (fun p => bif p.1 == g then (p.1, p.2 + 1) else p)) g =
      (dictGet counts g).map (fun v => v + 1) := by
  intro counts
  induction counts with
  | nil => rfl
  | cons kv rest ih =>
    obtain ⟨k, v⟩ := kv
    simp only [List.map_cons]
    cases hk : k == g <;>
      · simp only [hk, Bool.cond_false, Bool.cond_true, dictGet, ih]
        cases dictGet rest g with
        | some w => simp
        | none => simp [hk]

theorem dictGet_map_bump_other (g' g : Str) (hne : (g' == g) = false) :
    ∀ (counts : List (Str × ℚ)),
    dictGet (counts.map (fun p => bif p.1 == g' then (p.1, p.2 + 1) else p)) g =
      dictGet counts g := by
  intro counts
  induction counts with
  | nil => rfl
  | cons kv rest ih =>
    obtain ⟨k, v⟩ := kv
    simp only [List.map_cons]
    cases hk : k == g' with
    | true =>
      have h1 : k = g' := by simpa using hk
      subst h1
      simp only [Bool.cond_true, dictGet, ih]
      cases dictGet rest g with
      | some w => simp
      | none => simp [hne]
    | false =>
      simp only [Bool.cond_false, dictGet, ih]

theorem dictGet_bump_same (counts : List (Str × ℚ)) (g : Str) :
    dictGet (bump counts g) g = some (getVal counts g + 1) := by
  unfold bump
  cases h : counts.any (fun p => p.1 == g) with
  | true =>
    rw [Bool.cond_true, dictGet_map_bump_same]
    rw [any_key_isSome] at h
    cases hg : dictGet counts g with
    | none => rw [hg] at h; cases h
    | some v => simp [getVal, hg]
  | false =>
    rw [Bool.cond_false, dictGet_append_single]
    rw [any_key_isSome] at h
    have hg : dictGet counts g = none := by
      cases hg : dictGet counts g with
      | none => rfl
      | some v => rw [hg] at h; simp at h
    simp [getVal, hg]

theorem dictGet_bump_other (counts : List (Str × ℚ)) (g' g : Str) (hne : (g' == g) = false) :
    dictGet (bump counts g') g = dictGet counts g := by
  unfold bump
  cases h : counts.any (fun p => p.1 == g') with
  | true => rw [Bool.cond_true, dictGet_map_bump_other g' g hne]
  | false => rw [Bool.cond_false, dictGet_append_single, hne, Bool.cond_false]

theorem getVal_bump_same (counts : List (Str × ℚ)) (g : Str) :
    getVal (bump counts g) g = getVal counts g + 1 := by
  unfold getVal
  rw [dictGet_bump_same]
  rfl

theorem getVal_bump_other (counts : List (Str × ℚ)) (g' g : Str) (hne : g' ≠ g) :
    getVal (bump counts g') g = getVal counts g := by
  unfold getVal
  rw [dictGet_bump_other counts g' g (by simp [hne])]

theorem fold_getVal (lookup : List (Str × FeatureEntry)) (g : Str)
    (hg : dictHas lookup g = true) :
    ∀ (gs : List Str) (counts : List (Str × ℚ)),
    getVal (gs.foldl (countStep lookup) counts) g = getVal counts g + (gs.count g : ℚ) := by
  intro gs
  induction gs with
  | nil =>
    intro counts
    simp
  | cons g' gs ih =>
    intro counts
    rw [List.foldl_cons, ih (countStep lookup counts g')]
    by_cases hgg : g' = g
    · subst hgg
      rw [List.count_cons_self]
      unfold countStep
      rw [if_pos hg, getVal_bump_same]
      push_cast
      ring
    · rw [List.count_cons_of_ne (fun h => hgg h.symm)]
      unfold countStep
      by_cases hl : dictHas lookup g' = true
      · rw [if_pos hl, getVal_bump_other counts g' g hgg]
      · rw [if_neg hl]

theorem fold_keys (lookup : List (Str × FeatureEntry)) (g : Str) :
    ∀ (gs : List Str) (counts : List (Str × ℚ)),
    (dictGet (gs.foldl (countStep lookup) counts) g).isSome = true →
    (dictGet counts g).isSome = true ∨ dictHas lookup g = true := by
  intro gs
  induction gs with
  | nil =>
    intro counts h
    exact Or.inl h
  | cons g' gs ih =>
    intro counts h
    rw [List.foldl_cons] at h
    rcases ih (countStep lookup counts g') h with h1 | h1
    · unfold countStep at h1
      by_cases hl : dictHas lookup g' = true
      · rw [if_pos hl] at h1
        by_cases hgg : g' = g
        · subst hgg
          exact Or.inr hl
        · rw [dictGet_bump_other counts g' g (by simp [hgg])] at h1
          exact Or.inl h1
      · rw [if_neg hl] at h1
        exact Or.inl h1
    · exact Or.inr h1

theorem rawCounts_oov (text : Str) (nmin nmax : Nat) (lookup : List (Str × FeatureEntry))
    (g : Str) (h : dictHas lookup g = false) :
    dictGet (rawCounts text nmin nmax lookup) g = none := by
  unfold rawCounts
  cases hd : dictGet ((gramSeq text nmin nmax).foldl (countStep lookup) []) g with
  | none => rfl
  | some v =>
    rcases fold_keys lookup g (gramSeq text nmin nmax) [] (by rw [hd]; rfl) with h1 | h1
    · cases h1
    · rw [h1] at h
      cases h

theorem gramSeq_mem (text : Str) (nmin nmax : Nat) (g : Str) :
    g ∈ gramSeq text nmin nmax ↔
      ∃ n, nmin ≤ n ∧ n ≤ nmax ∧ ∃ i, i + n ≤ text.length ∧ (text.drop i).take n = g := by
  unfold gramSeq
  simp only [List.mem_flatMap, List.mem_map, List.mem_range, List.mem_range'_1]
  constructor
  · rintro ⟨n, ⟨hn1, hn2⟩, i, hi, rfl⟩
    exact ⟨n, hn1, by omega, i, by omega, rfl⟩
  · rintro ⟨n, hn1, hn2, i, hi, rfl⟩
    exact ⟨n, ⟨hn1, by omega⟩, i, by omega, rfl⟩

/-- C5: feature extraction counts every contiguous length-`n` window of the
text, overlaps included, for each `n` from `ngram_min` to `ngram_max`
(a window exists only when `i + n ≤ len(text)`, so an `n` longer than the text
contributes nothing), and silently discards windows absent from the
vocabulary; on vocabulary `{"ab"}`, range `[2,2]` and text `"ababab"` the raw
count of `"ab"` is 3. -/
theorem C5_feature_counts :
    (∀ (text : Str) (nmin nmax : Nat) (g : Str),
      g ∈ gramSeq text nmin nmax ↔
        ∃ n, nmin ≤ n ∧ n ≤ nmax ∧ ∃ i, i + n ≤ text.length ∧ (text.drop i).take n = g) ∧
    (∀ (text : Str) (nmin nmax : Nat) (lookup : List (Str × FeatureEntry)) (g : Str),
      dictHas lookup g = true →
      getVal (rawCounts text nmin nmax lookup) g = ((gramSeq text nmin nmax).count g : ℚ)) ∧
    (∀ (text : Str) (nmin nmax : Nat) (lookup : List (Str × FeatureEntry)) (g : Str),
      dictHas lookup g = false →
      dictGet (rawCounts text nmin nmax lookup) g = none) ∧
    getVal (rawCounts "ababab".toList 2 2 [("ab".toList, ⟨1, 1⟩)]) "ab".toList = 3 := by
  have hcount : ∀ (text : Str) (nmin nmax : Nat) (lookup : List (Str × FeatureEntry)) (g : Str),
      dictHas lookup g = true →
      getVal (rawCounts text nmin nmax lookup) g = ((gramSeq text nmin nmax).count g : ℚ) := by
    intro text nmin nmax lookup g hg
    unfold rawCounts
    rw [fold_getVal lookup g hg (gramSeq text nmin nmax) []]
    simp [getVal, dictGet]
  refine ⟨gramSeq_mem, hcount, rawCounts_oov, ?_⟩
  rw [hcount "ababab".toList 2 2 [("ab".toList, ⟨1, 1⟩)] "ab".toList (by decide),
    show (gramSeq "ababab".toList 2 2).count "ab".toList = 3 from by decide]
  norm_num

/-- C5 witness: the counting statement applied to the concrete vocabulary
`{"ab"}`, range `[2,2]`, text `"ababab"`. -/
theorem C5_feature_counts_witness :
    getVal (rawCounts "ababab".toList 2 2 [("ab".toList, ⟨1, 1⟩)]) "ab".toList =
      (((gramSeq "ababab".toList 2 2).count "ab".toList : Nat) : ℚ) ∧
    (gramSeq "ababab".toList 2 2).count "ab".toList = 3 :=
  ⟨C5_feature_counts.2.1 "ababab".toList 2 2 [("ab".toList, ⟨1, 1⟩)] "ab".toList (by decide),
   by decide⟩

theorem normSq_cons (p : Str × ℚ) (ps : List (Str × ℚ)) :
    normSq (p :: ps) = p.2 * p.2 + normSq ps := by
  unfold normSq
  rw [List.map_cons, List.sum_cons]

theorem normSq_nonneg (w : List (Str × ℚ)) : 0 ≤ normSq w := by
  induction w with
  | nil => simp [normSq]
  | cons p ps ih =>
    rw [normSq_cons]
    exact add_nonneg (mul_self_nonneg p.2) ih

theorem bump_vals (counts : List (Str × ℚ)) (g : Str) (h : ∀ q ∈ counts, 1 ≤ q.2) :
    ∀ p ∈ bump counts g, 1 ≤ p.2 := by
  unfold bump
  cases hany : counts.any (fun p => p.1 == g) with
  | true =>
    rw [Bool.cond_true]
    intro p hp
    rw [List.mem_map] at hp
    obtain ⟨q, hq, rfl⟩ := hp
    cases hqg : q.1 == g <;> simp only [Bool.cond_false, Bool.cond_true]
    · exact h q hq
    · have := h q hq
      linarith
  | false =>
    rw [Bool.cond_false]
    intro p hp
    rcases List.mem_append.mp hp with hp | hp
    · exact h p hp
    · rw [List.mem_singleton] at hp
      subst hp
      norm_num

theorem fold_vals (lookup : List (Str × FeatureEntry)) :
    ∀ (gs : List Str) (counts : List (Str × ℚ)), (∀ q ∈ counts, 1 ≤ q.2) →
    ∀ p ∈ gs.foldl (countStep lookup) counts, 1 ≤ p.2 := by
  intro gs
  induction gs with
  | nil =>
    intro counts h
    exact h
  | cons g' gs ih =>
    intro counts h
    rw [List.foldl_cons]
    refine ih (countStep lookup counts g') ?_
    unfold countStep
    by_cases hl : dictHas lookup g' = true
    · rw [if_pos hl]
      exact bump_vals counts g' h
    · rw [if_neg hl]
      exact h

theorem mem_bump_key (counts : List (Str × ℚ)) (g : Str) (p : Str × ℚ)
    (hp : p ∈ bump counts g) : (∃ q ∈ counts, p.1 = q.1) ∨ p.1 = g := by
  unfold bump at hp
  cases hany : counts.any (fun p => p.1 == g) with
  | true =>
    rw [hany, Bool.cond_true, List.mem_map] at hp
    obtain ⟨q, hq, rfl⟩ := hp
    cases hqg : q.1 == g <;> simp only [Bool.cond_false, Bool.cond_true]
    · exact Or.inl ⟨q, hq, rfl⟩
    · exact Or.inl ⟨q, hq, rfl⟩
  | false =>
    rw [hany, Bool.cond_false] at hp
    rcases List.mem_append.mp hp with hp | hp
    · exact Or.inl ⟨p, hp, rfl⟩
    · rw [List.mem_singleton] at hp
      subst hp
      exact Or.inr rfl

theorem fold_keys_mem (lookup : List (Str × FeatureEntry)) :
    ∀ (gs : List Str) (counts : List (Str × ℚ)),
    (∀ q ∈ counts, dictHas lookup q.1 = true) →
    ∀ p ∈ gs.foldl (countStep lookup) counts, dictHas lookup p.1 = true := by
  intro gs
  induction gs with
  | nil =>
    intro counts h
    exact h
  | cons g' gs ih =>
    intro counts h
    rw [List.foldl_cons]
    refine ih (countStep lookup counts g') ?_
    unfold countStep
    by_cases hl : dictHas lookup g' = true
    · rw [if_pos hl]
      intro q hq
      rcases mem_bump_key counts g' q hq with ⟨q', hq', he⟩ | he
      · rw [he]
        exact h q' hq'
      · rw [he]
        exact hl
    · rw [if_neg hl]
      exact h

theorem rawCounts_vals (text : Str) (nmin nmax : Nat) (lookup : List (Str × FeatureEntry)) :
    ∀ p ∈ rawCounts text nmin nmax lookup, 1 ≤ p.2 :=
  fold_vals lookup (gramSeq text nmin nmax) [] (by simp)

theorem rawCounts_keys (text : Str) (nmin nmax : Nat) (lookup : List (Str × FeatureEntry)) :
    ∀ p ∈ rawCounts text nmin nmax lookup, dictHas lookup p.1 = true :=
  fold_keys_mem lookup (gramSeq text nmin nmax) [] (by simp)

theorem dictGet_mem {α : Type} : ∀ (l : List (Str × α)) (g : Str) (v : α),
    dictGet l g = some v → ∃ k, (k, v) ∈ l ∧ (k == g) = true := by
  intro l
  induction l with
  | nil =>
    intro g v h
    cases h
  | cons kv rest ih =>
    obtain ⟨k', v'⟩ := kv
    intro g v h
    simp only [dictGet] at h
    cases hd : dictGet rest g with
    | some w =>
      rw [hd] at h
      cases h
      obtain ⟨k, hk, hkg⟩ := ih g v hd
      exact ⟨k, List.mem_cons_of_mem _ hk, hkg⟩
    | none =>
      rw [hd] at h
      cases hk : k' == g with
      | true =>
        rw [hk, Bool.cond_true] at h
        cases h
        exact ⟨k', List.mem_cons_self .., hk⟩
      | false =>
        rw [hk, Bool.cond_false] at h
        cases h

theorem idfOf_ne_zero (lookup : List (Str × FeatureEntry))
    (hidf : ∀ q ∈ lookup, q.2.idf ≠ 0) (g : Str) (h : dictHas lookup g = true) :
    idfOf lookup g ≠ 0 := by
  unfold idfOf
  cases hd : dictGet lookup g with
  | none =>
    unfold dictHas at h
    rw [hd] at h
    cases h
  | some e =>
    obtain ⟨k, hk, -⟩ := dictGet_mem lookup g e hd
    exact hidf (k, e) hk

theorem weight_vals_ne_zero (text : Str) (nmin nmax : Nat)
    (lookup : List (Str × FeatureEntry)) (hidf : ∀ q ∈ lookup, q.2.idf ≠ 0) :
    ∀ p ∈ weightCounts (rawCounts text nmin nmax lookup) lookup, p.2 ≠ 0 := by
  intro p hp
  unfold weightCounts at hp
  rw [List.mem_map] at hp
  obtain ⟨q, hq, rfl⟩ := hp
  have h1 := rawCounts_vals text nmin nmax lookup q hq
  have h2 := rawCounts_keys text nmin nmax lookup q hq
  exact mul_ne_zero (by linarith) (idfOf_ne_zero lookup hidf q.1 h2)

theorem normSq_eq_zero_iff (w : List (Str × ℚ)) (hw : ∀ p ∈ w, p.2 ≠ 0) :
    normSq w = 0 ↔ w = [] := by
  constructor
  · intro h
    cases w with
    | nil => rfl
    | cons p ps =>
      rw [normSq_cons] at h
      have h1 : 0 < p.2 * p.2 := mul_self_pos.mpr (hw p (List.mem_cons_self ..))
      have h2 := normSq_nonneg ps
      linarith
  · intro h
    subst h
    simp [normSq]

theorem sum_sq_div (r : ℝ) : ∀ (w : List (Str × ℚ)),
    ((w.map (fun p => (p.1, (p.2 : ℝ) / r))).map (fun p => p.2 * p.2)).sum =
      ((normSq w : ℚ) : ℝ) / (r * r) := by
  intro w
  induction w with
  | nil => simp [normSq]
  | cons p ps ih =>
    rw [List.map_cons, List.map_cons, List.sum_cons, ih, normSq_cons]
    push_cast
    rw [div_mul_div_comm, div_add_div_same]

/-- C6 amendment: after idf weighting, the map is L2-normalized by dividing by
the square root of the sum of squares, and when every vocabulary idf is
nonzero the squared norm vanishes exactly when no window matched (empty text
or out-of-vocabulary text), in which case the empty map is returned; a
non-empty result then has squared L2 norm exactly 1.  (Without the idf
hypothesis the zero-norm branch can return a non-empty all-zero map, see the
counterexample.) -/
theorem C6_l2_normalization (text : Str) (nmin nmax : Nat)
    (lookup : List (Str × FeatureEntry)) (hidf : ∀ q ∈ lookup, q.2.idf ≠ 0) :
    (rawCounts text nmin nmax lookup = [] → compute_tfidf text nmin nmax lookup = []) ∧
    (normSq (weightCounts (rawCounts text nmin nmax lookup) lookup) = 0 ↔
      rawCounts text nmin nmax lookup = []) ∧
    (compute_tfidf text nmin nmax lookup ≠ [] →
      ((compute_tfidf text nmin nmax lookup).map (fun p => p.2 * p.2)).sum = 1) := by
  have hwv := weight_vals_ne_zero text nmin nmax lookup hidf
  have hiff : normSq (weightCounts (rawCounts text nmin nmax lookup) lookup) = 0 ↔
      rawCounts text nmin nmax lookup = [] := by
    rw [normSq_eq_zero_iff _ hwv]
    unfold weightCounts
    rw [List.map_eq_nil_iff]
  refine ⟨?_, hiff, ?_⟩
  · intro h
    unfold compute_tfidf
    by_cases ht : text = []
    · rw [if_pos ht]
    · rw [if_neg ht, if_pos (hiff.mpr h), h]
      simp [weightCounts]
  · intro hne
    unfold compute_tfidf at hne ⊢
    by_cases ht : text = []
    · rw [if_pos ht] at hne
      exact absurd rfl hne
    · rw [if_neg ht] at hne ⊢
      by_cases hz : normSq (weightCounts (rawCounts text nmin nmax lookup) lookup) = 0
      · rw [if_pos hz] at hne
        have hr := hiff.mp hz
        rw [hr] at hne
        simp [weightCounts] at hne
      · rw [if_neg hz] at hne ⊢
        have h0 : (0:ℚ) ≤ normSq (weightCounts (rawCounts text nmin nmax lookup) lookup) :=
          normSq_nonneg _
        have hpos : (0:ℝ) <
            ((normSq (weightCounts (rawCounts text nmin nmax lookup) lookup) : ℚ) : ℝ) := by
          have : (0:ℚ) < normSq (weightCounts (rawCounts text nmin nmax lookup) lookup) :=
            lt_of_le_of_ne h0 (Ne.symm hz)
          exact_mod_cast this
        rw [sum_sq_div]
        rw [Real.mul_self_sqrt (le_of_lt hpos)]
        exact div_self (ne_of_gt hpos)

/-- C6 counterexample: with a vocabulary entry whose idf is 0, the text `"ab"`
matches a gram yet every weighted value is zero, so the zero-norm branch
returns a non-empty map whose L2 norm is 0, not 1 — refuting "whenever the sum
of squares is zero (empty text or no gram matched) the returned map is empty"
and "a non-empty extracted feature map has L2 norm exactly 1". -/
theorem C6_counterexample :
    compute_tfidf "ab".toList 2 2 [("ab".toList, ⟨0, 1⟩)] ≠ [] ∧
    ¬ ((compute_tfidf "ab".toList 2 2 [("ab".toList, ⟨0, 1⟩)]).map
        (fun p => p.2 * p.2)).sum = 1 := by
  have hr : rawCounts "ab".toList 2 2 [("ab".toList, ⟨0, 1⟩)] = [("ab".toList, 1)] := by
    decide
  have hw : weightCounts [("ab".toList, (1:ℚ))] [("ab".toList, ⟨0, 1⟩)] =
      [("ab".toList, 0)] := by
    simp [weightCounts, idfOf, dictGet]
  have hs : normSq [("ab".toList, (0:ℚ))] = 0 := by
    simp [normSq]
  unfold compute_tfidf
  rw [if_neg (by decide : ¬("ab".toList = [])), hr, hw, if_pos hs]
  constructor
  · simp
  · simp

/-- C6 witness: the spec's own vector, weighted values 3 and 4 (idf 3 and 4 on
the grams `"ab"` and `"cd"` of `"abcd"`, one occurrence each), is normalized to
squared L2 norm 1. -/
theorem C6_l2_normalization_witness :
    ((compute_tfidf "abcd".toList 2 2
        [("ab".toList, ⟨3, 0⟩), ("cd".toList, ⟨4, 0⟩)]).map (fun p => p.2 * p.2)).sum = 1 := by
  have hidf : ∀ q ∈ [("ab".toList, (⟨3, 0⟩ : FeatureEntry)),
      ("cd".toList, (⟨4, 0⟩ : FeatureEntry))], q.2.idf ≠ 0 := by decide
  have hr : rawCounts "abcd".toList 2 2
      [("ab".toList, (⟨3, 0⟩ : FeatureEntry)), ("cd".toList, ⟨4, 0⟩)] =
      [("ab".toList, 1), ("cd".toList, 1)] := by decide
  have hw : weightCounts [("ab".toList, (1:ℚ)), ("cd".toList, (1:ℚ))]
      [("ab".toList, (⟨3, 0⟩ : FeatureEntry)), ("cd".toList, ⟨4, 0⟩)] =
      [("ab".toList, 3), ("cd".toList, 4)] := by
    simp [weightCounts, idfOf, dictGet]
  have hne : compute_tfidf "abcd".toList 2 2
      [("ab".toList, (⟨3, 0⟩ : FeatureEntry)), ("cd".toList, ⟨4, 0⟩)] ≠ [] := by
    unfold compute_tfidf
    rw [if_neg (by decide : ¬("abcd".toList = [])), hr, hw]
    rw [if_neg (by norm_num [normSq] : ¬(normSq [("ab".toList, (3:ℚ)), ("cd".toList, 4)] = 0))]
    simp
  exact (C6_l2_normalization "abcd".toList 2 2
    [("ab".toList, ⟨3, 0⟩), ("cd".toList, ⟨4, 0⟩)] hidf).2.2 hne

/-! ## Linear scorer (`compute_score` of `scripts/classify_unlabeled_titles.py`) -/

theorem compute_score_acc : ∀ (fs : List (Str × ℝ)) (lookup : List (Str × FeatureEntry))
    (acc : ℝ), (∀ p ∈ fs, (dictGet lookup p.1).isSome = true) →
    compute_score fs lookup acc = some (acc + (fs.map (fun p => coefOf lookup p.1 * p.2)).sum) := by
  intro fs
  induction fs with
  | nil =>
    intro lookup acc h
    simp [compute_score]
  | cons p fs ih =>
    intro lookup acc h
    obtain ⟨g, v⟩ := p
    have hp := h (g, v) (List.mem_cons_self ..)
    cases hd : dictGet lookup g with
    | none =>
      rw [hd] at hp
      cases hp
    | some e =>
      have hstep : compute_score ((g, v) :: fs) lookup acc =
          compute_score fs lookup (acc + (e.coef : ℝ) * v) := by
        simp only [compute_score, hd]
      rw [hstep, ih lookup _ (fun q hq => h q (List.mem_cons_of_mem _ hq))]
      have hc : coefOf lookup g = (e.coef : ℝ) := by
        unfold coefOf
        rw [hd]
      rw [List.map_cons, List.sum_cons, hc]
      congr 1
      ring

theorem rawCounts_all_oov (lookup : List (Str × FeatureEntry)) :
    ∀ (gs : List Str) (counts : List (Str × ℚ)), (∀ g ∈ gs, dictHas lookup g = false) →
    gs.foldl (countStep lookup) counts = counts := by
  intro gs
  induction gs with
  | nil =>
    intro counts h
    rfl
  | cons g' gs ih =>
    intro counts h
    rw [List.foldl_cons]
    unfold countStep
    rw [if_neg (by rw [h g' (List.mem_cons_self ..)]; simp)]
    exact ih counts (fun g hg => h g (List.mem_cons_of_mem _ hg))

/-- C7: the linear scorer returns the intercept plus the sum of
`coef[gram] * weight` over exactly the features present in the sparse map; for
the empty map it returns the intercept, and a text none of whose windows is in
the vocabulary yields an empty feature map and a logit equal to the
intercept. -/
theorem C7_linear_scorer :
    (∀ (lookup : List (Str × FeatureEntry)) (intercept : ℝ),
      compute_score [] lookup intercept = some intercept) ∧
    (∀ (features : List (Str × ℝ)) (lookup : List (Str × FeatureEntry)) (intercept : ℝ),
      (∀ p ∈ features, (dictGet lookup p.1).isSome = true) →
      compute_score features lookup intercept =
        some (intercept + (features.map (fun p => coefOf lookup p.1 * p.2)).sum)) ∧
    (∀ (text : Str) (nmin nmax : Nat) (lookup : List (Str × FeatureEntry)) (intercept : ℝ),
      (∀ g ∈ gramSeq text nmin nmax, dictHas lookup g = false) →
      compute_tfidf text nmin nmax lookup = [] ∧
      compute_score (compute_tfidf text nmin nmax lookup) lookup intercept = some intercept) := by
  refine ⟨fun lookup intercept => rfl, compute_score_acc, ?_⟩
  intro text nmin nmax lookup intercept h
  have hraw : rawCounts text nmin nmax lookup = [] :=
    rawCounts_all_oov lookup (gramSeq text nmin nmax) [] h
  have hempty : compute_tfidf text nmin nmax lookup = [] := by
    unfold compute_tfidf
    rw [hraw]
    by_cases ht : text = []
    · rw [if_pos ht]
    · rw [if_neg ht]
      rw [if_pos (by simp [weightCounts, normSq])]
      simp [weightCounts]
  exact ⟨hempty, by rw [hempty]; rfl⟩

/-- C7 witness: on the vocabulary `{"ab"}` the out-of-vocabulary text `"xyz"`
produces the empty feature map and the logit equals the intercept 5. -/
theorem C7_linear_scorer_witness :
    compute_tfidf "xyz".toList 2 2 [("ab".toList, ⟨1, 2⟩)] = [] ∧
    compute_score (compute_tfidf "xyz".toList 2 2 [("ab".toList, ⟨1, 2⟩)])
      [("ab".toList, ⟨1, 2⟩)] 5 = some 5 :=
  C7_linear_scorer.2.2 "xyz".toList 2 2 [("ab".toList, ⟨1, 2⟩)] 5 (by decide)

/-! ## Keyword adjustment (`apply_keyword_adjustment` of
`scripts/classify_unlabeled_titles.py`; `keyword_adjustment` of
`scripts/train_baseline_classifier.py` is the identical function) -/

/-- The loaded keyword rules. -/
structure KeywordRules where
  positives : List Str
  negatives : List Str
  positive_bonus : ℚ
  negative_penalty : ℚ
deriving DecidableEq

/-- `any(word and word in lower for word in words)`: a keyword matches when it
is non-empty (Python truthiness of a string) and a contiguous substring. -/
def hasKeyword (words : List Str) (lower : Str) : Bool :=
  words.any (fun w => !w.isEmpty && decide (w <:+: lower))

/-- `apply_keyword_adjustment`: lower-case the text, then add the bonus when a
positive keyword matches and no negative does, and subtract the penalty
whenever a negative keyword matches. -/
def apply_keyword_adjustment (text : Str) (rules : KeywordRules) : ℚ :=
  (if hasKeyword rules.positives (lowerStr text) &&
      !hasKeyword rules.negatives (lowerStr text)
    then rules.positive_bonus else 0) -
  (if hasKeyword rules.negatives (lowerStr text) then rules.negative_penalty else 0)

/-- A JSON value as far as `load_keyword_rules` inspects one. -/
inductive JVal where
  | str (s : Str)
  | num (q : ℚ)
  | boolean (b : Bool)
  | null
deriving DecidableEq

/-- `isinstance(w, str)`. -/
def JVal.isString : JVal → Bool
  | .str _ => true
  | _ => false

/-- `load_keyword_rules` of `scripts/classify_unlabeled_titles.py` (the copy in
`scripts/train_baseline_classifier.py` is identical): keep the string entries
of each keyword list in order, lower-cased; the bonus and penalty floats are
taken as given (file reading and float coercion are outside the model). -/
def load_keyword_rules (positivesRaw negativesRaw : List JVal)
    (bonus penalty : ℚ) : KeywordRules :=
  { positives := positivesRaw.filterMap (fun v =>
      match v with
      | .str s => some (lowerStr s)
      | _ => none),
    negatives := negativesRaw.filterMap (fun v =>
      match v with
      | .str s => some (lowerStr s)
      | _ => none),
    positive_bonus := bonus,
    negative_penalty := penalty }

theorem hasKeyword_iff (words : List Str) (lower : Str) :
    hasKeyword words lower = true ↔ ∃ w ∈ words, w ≠ [] ∧ w <:+: lower := by
  unfold hasKeyword
  rw [List.any_eq_true]
  constructor
  · rintro ⟨w, hw, hcond⟩
    rw [Bool.and_eq_true, Bool.not_eq_true', List.isEmpty_eq_false_iff_exists_mem] at hcond
    obtain ⟨⟨x, hx⟩, hinf⟩ := hcond
    exact ⟨w, hw, List.ne_nil_of_mem hx, of_decide_eq_true hinf⟩
  · rintro ⟨w, hw, hne, hinf⟩
    refine ⟨w, hw, ?_⟩
    rw [Bool.and_eq_true, Bool.not_eq_true']
    constructor
    · cases w with
      | nil => exact absurd rfl hne
      | cons c cs => rfl
    · exact decide_eq_true hinf

/-- C8: keyword adjustment is asymmetric.  When some configured (non-empty)
positive keyword occurs in the lower-cased text and no configured negative
keyword does, the adjustment is `+positive_bonus`; whenever some configured
negative keyword occurs — regardless of positive matches — the adjustment is
`-negative_penalty`, so a text matching both kinds receives only the
penalty. -/
theorem C8_keyword_asymmetry (rules : KeywordRules) (text : Str) :
    ((∃ w ∈ rules.positives, w ≠ [] ∧ w <:+: lowerStr text) →
      (∀ v ∈ rules.negatives, ¬(v ≠ [] ∧ v <:+: lowerStr text)) →
      apply_keyword_adjustment text rules = rules.positive_bonus) ∧
    ((∃ v ∈ rules.negatives, v ≠ [] ∧ v <:+: lowerStr text) →
      apply_keyword_adjustment text rules = -rules.negative_penalty) := by
  constructor
  · intro hp hn
    have hp' : hasKeyword rules.positives (lowerStr text) = true :=
      (hasKeyword_iff _ _).mpr hp
    have hn' : hasKeyword rules.negatives (lowerStr text) = false := by
      rw [← Bool.not_eq_true, hasKeyword_iff]
      rintro ⟨v, hv, hne, hinf⟩
      exact hn v hv ⟨hne, hinf⟩
    unfold apply_keyword_adjustment
    rw [hp', hn']
    norm_num
  · intro hn
    have hn' : hasKeyword rules.negatives (lowerStr text) = true :=
      (hasKeyword_iff _ _).mpr hn
    unfold apply_keyword_adjustment
    rw [hn']
    simp

/-- C8 witness: with positive keyword `"ab"` (bonus 2) and negative keyword
`"cd"` (penalty 3), the text `"zab"` gets `+2` while `"zabcd"`, which contains
both, gets exactly `-3`. -/
theorem C8_keyword_asymmetry_witness :
    apply_keyword_adjustment "zab".toList ⟨["ab".toList], ["cd".toList], 2, 3⟩ = 2 ∧
    apply_keyword_adjustment "zabcd".toList ⟨["ab".toList], ["cd".toList], 2, 3⟩ = -3 :=
  ⟨(C8_keyword_asymmetry ⟨["ab".toList], ["cd".toList], 2, 3⟩ "zab".toList).1
      (by decide) (by decide),
   (C8_keyword_asymmetry ⟨["ab".toList], ["cd".toList], 2, 3⟩ "zabcd".toList).2 (by decide)⟩

/-- C10: an empty configured keyword never matches (the membership test
requires a non-empty keyword even though the empty string is a substring of
every text), so inserting `""` into either keyword list changes neither flag
nor the adjustment; and non-string entries of the configured keyword lists are
silently dropped by the loader rather than matching or raising. -/
theorem C10_empty_and_nonstring_keywords :
    (∀ (ws : List Str) (lower : Str), hasKeyword ([] :: ws) lower = hasKeyword ws lower) ∧
    (∀ (rules : KeywordRules) (text : Str),
      apply_keyword_adjustment text
          ⟨[] :: rules.positives, rules.negatives, rules.positive_bonus,
            rules.negative_penalty⟩ = apply_keyword_adjustment text rules ∧
      apply_keyword_adjustment text
          ⟨rules.positives, [] :: rules.negatives, rules.positive_bonus,
            rules.negative_penalty⟩ = apply_keyword_adjustment text rules) ∧
    (∀ (l₁ l₂ negativesRaw : List JVal) (v : JVal) (bonus penalty : ℚ),
      v.isString = false →
      load_keyword_rules (l₁ ++ v :: l₂) negativesRaw bonus penalty =
        load_keyword_rules (l₁ ++ l₂) negativesRaw bonus penalty) ∧
    (∀ (positivesRaw l₁ l₂ : List JVal) (v : JVal) (bonus penalty : ℚ),
      v.isString = false →
      load_keyword_rules positivesRaw (l₁ ++ v :: l₂) bonus penalty =
        load_keyword_rules positivesRaw (l₁ ++ l₂) bonus penalty) := by
  have hk : ∀ (ws : List Str) (lower : Str), hasKeyword ([] :: ws) lower = hasKeyword ws lower := by
    intro ws lower
    unfold hasKeyword
    rw [List.any_cons]
    simp
  have hdrop : ∀ (v : JVal), v.isString = false →
      (match v with | .str s => some (lowerStr s) | _ => none) = (none : Option Str) := by
    intro v hv
    cases v with
    | str s => cases hv
    | num q => rfl
    | boolean b => rfl
    | null => rfl
  refine ⟨hk, ?_, ?_, ?_⟩
  · intro rules text
    constructor
    · unfold apply_keyword_adjustment
      rw [hk]
    · unfold apply_keyword_adjustment
      rw [hk]
  · intro l₁ l₂ negativesRaw v bonus penalty hv
    unfold load_keyword_rules
    rw [List.filterMap_append, List.filterMap_append, List.filterMap_cons, hdrop v hv]
  · intro positivesRaw l₁ l₂ v bonus penalty hv
    unfold load_keyword_rules
    rw [List.filterMap_append, List.filterMap_append, List.filterMap_cons, hdrop v hv]

/-- C10 witness: inserting the empty keyword or a numeric entry concretely
changes nothing. -/
theorem C10_empty_and_nonstring_keywords_witness :
    hasKeyword ([] :: ["ab".toList]) "zab".toList = hasKeyword ["ab".toList] "zab".toList ∧
    load_keyword_rules [JVal.str "ab".toList, JVal.num 3] [] 1 1 =
      load_keyword_rules [JVal.str "ab".toList] [] 1 1 :=
  ⟨C10_empty_and_nonstring_keywords.1 ["ab".toList] "zab".toList,
   C10_empty_and_nonstring_keywords.2.2.1 [JVal.str "ab".toList] [] [] (JVal.num 3) 1 1
     (by decide)⟩

/-! ## Counterexamples and bracket-tag replacement -/

/-- C1 counterexample: normalization is not idempotent.  Deleting `<` (step 6)
after episode-marker removal (step 4) turns `"vol<3"` into `"vol3"`, which a
second pass recognizes as an episode marker and erases entirely. -/
theorem C1_counterexample :
    normalize_title (normalize_title "vol<3".toList) ≠ normalize_title "vol<3".toList ∧
    normalize_title "vol<3".toList = "vol3".toList ∧
    normalize_title (normalize_title "vol<3".toList) = [] := by decide

/-- C3 counterexample: the bracket tag of `"a[x]b"` is replaced by a space, so
the result is `"a b"`, not the `"ab"` that outright deletion would give. -/
theorem C3_counterexample :
    normalize_title "a[x]b".toList = "a b".toList ∧
    ¬ normalize_title "a[x]b".toList = "ab".toList := by decide

theorem takeWhile_no_rb (b : Str) : ∀ (x : Str), (∀ c ∈ x, c ≠ ']') →
    (x ++ ']' :: b).takeWhile (fun d => !(d == ']')) = x ∧
    (x ++ ']' :: b).dropWhile (fun d => !(d == ']')) = ']' :: b := by
  intro x
  induction x with
  | nil =>
    intro hx
    constructor <;> simp
  | cons c cs ih =>
    intro hx
    have hc : (c == ']') = false := by
      rw [beq_eq_false_iff_ne]
      exact hx c (List.mem_cons_self ..)
    obtain ⟨ht, hd⟩ := ih (fun d hdm => hx d (List.mem_cons_of_mem _ hdm))
    constructor
    · rw [List.cons_append, List.takeWhile_cons]
      simp [hc, ht]
    · rw [List.cons_append, List.dropWhile_cons]
      simp [hc, hd]

/-- C3 amendment: at a `[` with at least one non-`]` character before the next
`]`, the whole span through that first `]` is replaced by a single space (which
the final whitespace collapse and strip may merge or remove) — it is not
deleted; on `"a[x]b"` the pipeline therefore yields `"a b"`. -/
theorem C3_bracket_tag_replaced :
    (∀ (x b : Str), x ≠ [] → (∀ c ∈ x, c ≠ ']') →
      bracketSub ('[' :: (x ++ ']' :: b)) = ' ' :: bracketSub b) ∧
    normalize_title "a[x]b".toList = "a b".toList := by
  constructor
  · intro x b hx hcx
    obtain ⟨ht, hd⟩ := takeWhile_no_rb b x hcx
    rw [bracketSub_cons]
    have hcond : ('[' == '[' && !((x ++ ']' :: b).takeWhile (fun d => !(d == ']'))).isEmpty &&
        !((x ++ ']' :: b).dropWhile (fun d => !(d == ']'))).isEmpty) = true := by
      rw [ht, hd]
      cases x with
      | nil => exact absurd rfl hx
      | cons c cs => rfl
    rw [if_pos hcond, hd]
    rfl
  · decide

/-- C3 witness: the replacement statement applied at `x = "x"`, `b = "b"`. -/
theorem C3_bracket_tag_replaced_witness :
    bracketSub ('[' :: (['x'] ++ ']' :: ['b'])) = ' ' :: bracketSub ['b'] ∧
    normalize_title "a[x]b".toList = "a b".toList :=
  ⟨C3_bracket_tag_replaced.1 ['x'] ['b'] (by decide) (by decide),
   C3_bracket_tag_replaced.2⟩

end Lafter
